import Mathlib

/-!
Verification of the dslib discrete-event simulator core (src/sim.rs,
src/net.rs, src/node.rs, src/system.rs) against its specification.

Shallow embedding choices:
* `R64` (a total-ordered, NaN-free f64) is modelled by `Rat`.
* `Pcg64` is modelled by the stream of values that `gen_range(0.0 .. 1.0)`
  yields: a `List Rat` of draws; `rand()` consumes the head (`headD 0`).
  Cloning and restoring the RNG is copying the list.
* `BinaryHeap<EventEntry>` is modelled by the multiset of its entries
  (a `List`); `pop` is specified relationally as removing an entry that is
  maximal for the source's `Ord` (that is exactly what the heap guarantees,
  and with equal keys Rust's heap may return any maximal element).
* `HashMap`/`HashSet` become association lists / lists with set-like
  operations; the kernel only ever uses keyed lookup, insert and remove.
* actor trait objects become a state type `S` together with a behaviour
  record (`on` and `is_active`); `get_state`/`set_state` (the snapshot
  protocol) is copying the `S` value, which is what `Simulation`'s model
  checker relies on.
-/

/-- Mirrors `EventEntry` (sim.rs lines 16-23). -/
structure EventEntry (E : Type) where
  id : Nat
  time : Rat
  src : String
  dest : String
  event : E
deriving DecidableEq

/-- `Ord::cmp` on `R64` values (decorum's total order on NaN-free f64,
here `Rat`). -/
def cmpRat (a b : Rat) : Ordering :=
  if a < b then Ordering.lt else if b < a then Ordering.gt else Ordering.eq

/-- `Ord::cmp` on `u64` values. -/
def cmpNat (a b : Nat) : Ordering :=
  if a < b then Ordering.lt else if b < a then Ordering.gt else Ordering.eq

/-- Mirrors `impl Ord for EventEntry` (sim.rs lines 33-38):
`other.time.cmp(&self.time).then_with(|| other.id.cmp(&self.id))` —
the reversed comparison that turns Rust's max-heap into a min-queue. -/
def entryCmp {E : Type} (a b : EventEntry E) : Ordering :=
  (cmpRat b.time a.time).then (cmpNat b.id a.id)

/-- The dispatch order the spec describes: ascending `time`, ties broken by
ascending `id`. -/
def dispatchLE {E : Type} (a b : EventEntry E) : Prop :=
  a.time < b.time ∨ (a.time = b.time ∧ a.id ≤ b.id)

instance {E : Type} (a b : EventEntry E) : Decidable (dispatchLE a b) := by
  unfold dispatchLE; infer_instance

/-- Boolean form of `dispatchLE`, used by the executable pop. -/
def dispatchLEb {E : Type} (a b : EventEntry E) : Bool :=
  decide (dispatchLE a b)

/-- One event a handler queued through `ActorContext::emit`
(sim.rs lines 79-83). -/
structure CtxEvent (E : Type) where
  event : E
  dest : String
  delay : Rat
deriving DecidableEq

/-- The read-only data `ActorContext` (sim.rs lines 85-92) hands a handler:
its own address, the current time, the value `next_event_id` starts at and
the RNG stream it may draw from. -/
structure CtxIn (E : Type) where
  id : String
  time : Rat
  nextEventId : Nat
  rng : List Rat

/-- What a handler leaves behind in its `ActorContext` when `on` returns:
its new state, the emitted events in emission order, the requested
cancellations in request order, and the RNG stream after its draws. -/
structure CtxOut (S E : Type) where
  state : S
  events : List (CtxEvent E)
  canceled : List Nat
  rng : List Rat

/-- The actor registry's behaviour: for each address, `Actor::on` and
`Actor::is_active` (sim.rs lines 71-77).  A handler is a pure function of
the supplied context — the determinism contract's hypothesis. -/
structure ActorSys (S E : Type) where
  beh : String → S → E → CtxIn E → CtxOut S E
  isActive : String → S → Bool

/-- Mirrors the fields of `Simulation` (sim.rs lines 116-125). -/
structure SimState (S E : Type) where
  clock : Rat
  actors : List (String × S)
  events : List (EventEntry E)
  canceled : List Nat
  undelivered : List (EventEntry E)
  eventCount : Nat
  rng : List Rat
  trace : List (EventEntry E)

/-- `HashMap` keyed lookup. -/
def amGet {S : Type} : List (String × S) → String → Option S
  | [], _ => none
  | (k, v) :: rest, key => if k = key then some v else amGet rest key

/-- `HashMap::insert` (replace the value under an existing key, else add). -/
def amSet {S : Type} : List (String × S) → String → S → List (String × S)
  | [], key, v => [(key, v)]
  | (k, w) :: rest, key, v =>
      if k = key then (key, v) :: rest else (k, w) :: amSet rest key v

/-- `HashSet::insert`. -/
def setInsert (l : List Nat) (x : Nat) : List Nat :=
  if x ∈ l then l else x :: l

/-- `HashSet::remove`. -/
def setRemove (l : List Nat) (x : Nat) : List Nat :=
  l.filter (fun y => y ≠ x)

/-- Mirrors `Simulation::add_event` with `mc_events == None`
(sim.rs lines 149-169): the entry gets id `event_count` and time
`clock + delay`, is pushed on the committed queue, and the counter is
incremented; the id is returned. -/
def addEvent {S E : Type} (s : SimState S E) (event : E) (src dest : String)
    (delay : Rat) : Nat × SimState S E :=
  (s.eventCount,
   { s with
     events := s.events ++ [⟨s.eventCount, s.clock + delay, src, dest, event⟩],
     eventCount := s.eventCount + 1 })

/-- The entries `Simulation::step` makes from a handler's context events
(sim.rs lines 198-206): consecutive ids from `count`, time `clock + delay`
(the clock holds the dispatched event's time), `src` the handling actor. -/
def mkEntriesFrom {E : Type} (count : Nat) (time : Rat) (src : String) :
    List (CtxEvent E) → List (EventEntry E)
  | [] => []
  | c :: rest =>
      ⟨count, time + c.delay, src, c.dest, c.event⟩ ::
        mkEntriesFrom (count + 1) time src rest

/-- The shared body of `Simulation::step` once a non-canceled entry `e` is
in hand (sim.rs lines 183-217): advance the clock to `e.time`, look up the
destination, run the handler if the actor is present and active (absent:
log to `undelivered`; inactive: drop), then collect the handler's emissions
as fresh entries (returned separately so that the caller can push them on
the committed queue or on the model-checking frame) and apply its
cancellations. -/
def dispatchCore {S E : Type} (A : ActorSys S E) (s : SimState S E)
    (e : EventEntry E) : SimState S E × List (EventEntry E) :=
  let s1 := { s with clock := e.time }
  match amGet s1.actors e.dest with
  | none => ({ s1 with undelivered := s1.undelivered ++ [e] }, [])
  | some st =>
      if A.isActive e.dest st then
        let out := A.beh e.dest st e.event
          ⟨e.dest, e.time, s1.eventCount, s1.rng⟩
        let ents := mkEntriesFrom s1.eventCount e.time e.dest out.events
        ({ s1 with
           actors := amSet s1.actors e.dest out.state,
           rng := out.rng,
           eventCount := s1.eventCount + out.events.length,
           canceled := out.canceled.foldl setInsert s1.canceled }, ents)
      else (s1, [])

/-- `Simulation::step(None)` once the heap popped `e` leaving `rest`:
a canceled id is discarded (and removed from the cancellation set, clock
untouched); otherwise the event is dispatched and the new entries join the
committed queue. -/
def stepOn {S E : Type} (A : ActorSys S E) (s : SimState S E)
    (e : EventEntry E) (rest : List (EventEntry E)) : SimState S E :=
  if e.id ∈ s.canceled then
    { s with events := rest, canceled := setRemove s.canceled e.id }
  else
    let (s1, ents) := dispatchCore A { s with events := rest } e
    { s1 with events := s1.events ++ ents }

/-- `BinaryHeap::pop`, relationally: `e` is some entry of the queue that no
other entry exceeds in the source's `Ord` (the heap returns a maximal
element), and `rest` is the queue with that occurrence removed. -/
def popRel {E : Type} (l : List (EventEntry E)) (e : EventEntry E)
    (rest : List (EventEntry E)) : Prop :=
  (∃ l1 l2, l = l1 ++ e :: l2 ∧ rest = l1 ++ l2) ∧
    ∀ f ∈ l, entryCmp e f ≠ Ordering.lt

/-- Executable pop: the first entry that is `(time, id)`-least. -/
def popMinF {E : Type} : List (EventEntry E) →
    Option (EventEntry E × List (EventEntry E))
  | [] => none
  | e :: rest =>
      match popMinF rest with
      | none => some (e, [])
      | some (m, rest') =>
          if dispatchLEb e m then some (e, rest) else some (m, e :: rest')

/-- `Simulation::step(None)` (sim.rs lines 175-223) as a relation: the only
freedom left open is which maximal entry the heap yields.  `o` records the
popped entry (dispatched, or discarded when canceled), `none` when the
queue was empty (`step` returned `false`). -/
def stepRel {S E : Type} (A : ActorSys S E) (s : SimState S E)
    (o : Option (EventEntry E)) (s' : SimState S E) : Prop :=
  (s.events = [] ∧ o = none ∧ s' = s) ∨
  (∃ e rest, popRel s.events e rest ∧ o = some e ∧ s' = stepOn A s e rest)

/-- `n` calls to `step(None)`, recording each popped entry; stops early on
an empty queue as `Simulation::steps` does. -/
inductive runRel {S E : Type} (A : ActorSys S E) :
    SimState S E → Nat → List (EventEntry E) → SimState S E → Prop
  | zero (s : SimState S E) : runRel A s 0 [] s
  | empty (s : SimState S E) (n : Nat) :
      s.events = [] → runRel A s (n + 1) [] s
  | more (s : SimState S E) (n : Nat) (e : EventEntry E)
      (rest : List (EventEntry E)) (log : List (EventEntry E))
      (t : SimState S E) :
      popRel s.events e rest →
      runRel A (stepOn A s e rest) n log t →
      runRel A s (n + 1) (e :: log) t

/-- Executable run: `n` steps using the deterministic pop. -/
def runFun {S E : Type} (A : ActorSys S E) :
    Nat → SimState S E → List (EventEntry E) × SimState S E
  | 0, s => ([], s)
  | n + 1, s =>
      match popMinF s.events with
      | none => ([], s)
      | some (e, rest) =>
          let r := runFun A n (stepOn A s e rest)
          (e :: r.1, r.2)

/-- `Simulation::new(seed)` followed by queueing the initial events: the
seed stands for the RNG stream it determines, each initial event is added
through `add_event` at the current (zero) clock. -/
def initSim {S E : Type} (actors : List (String × S)) (rng : List Rat)
    (inits : List (E × String × String × Rat)) : SimState S E :=
  inits.foldl
    (fun s i => (addEvent s i.1 i.2.1 i.2.2.1 i.2.2.2).2)
    { clock := 0, actors := actors, events := [], canceled := [],
      undelivered := [], eventCount := 0, rng := rng, trace := [] }

/-- A concrete two-actor-free system used by witnesses: every event just
bumps the destination's counter state. -/
def wBeh : ActorSys Nat Nat :=
  ⟨fun _ st _ c => ⟨st + 1, [], [], c.rng⟩, fun _ _ => true⟩

def wInits : List (Nat × String × String × Rat) :=
  [(7, "a", "b", 1), (8, "a", "b", 0)]

def wSim0 : SimState Nat Nat := initSim [("b", 0)] [] wInits

def wEntry0 : EventEntry Nat := ⟨0, 1, "a", "b", 7⟩

def wEntry1 : EventEntry Nat := ⟨1, 0, "a", "b", 8⟩

/-! ## Model checking (sim.rs lines 245-330) -/

def getAt? {A : Type} : List A → Nat → Option A
  | [], _ => none
  | a :: _, 0 => some a
  | _ :: rest, n + 1 => getAt? rest n

/-- `Vec::remove(i)`. -/
def eraseAt {A : Type} : List A → Nat → List A
  | [], _ => []
  | _ :: rest, 0 => rest
  | a :: rest, n + 1 => a :: eraseAt rest n

/-- `Vec::insert(i, x)`. -/
def insAt {A : Type} : Nat → A → List A → List A
  | 0, x, l => x :: l
  | _ + 1, x, [] => [x]
  | n + 1, x, a :: l => a :: insAt n x l

def splitLast {A : Type} (l : List A) : Option (List A × A) :=
  match l.reverse with
  | [] => none
  | e :: rest => some (rest.reverse, e)

/-- `Simulation::step(Some(events))`, checker-driven: the event source is
the DFS frame (`Vec::pop` takes its last element) and handler emissions are
appended to the frame, never to the committed queue. -/
def stepMC {S E : Type} (A : ActorSys S E) (s : SimState S E)
    (frame : List (EventEntry E)) : SimState S E × List (EventEntry E) :=
  match splitLast frame with
  | none => (s, frame)
  | some (f0, e) =>
      if e.id ∈ s.canceled then
        ({ s with canceled := setRemove s.canceled e.id }, f0)
      else
        let p := dispatchCore A s e
        (p.1, f0 ++ p.2)

/-- The for-loop of `Simulation::model_checking_step` (sim.rs lines
256-318) over the remaining indices: per iteration check the deadline
oracle (the elapsed-time test, indexed by how many checks happened so far),
snapshot actors / event counter / cancellation set / RNG, move `frame[i]`
to the back, run one checker-driven step, recurse through `next`, record
the trace line on failure, pop the frame back down to `k - 1` entries,
re-insert the event at `i` and restore the snapshot.  `next` is the
recursive call at one less fuel; `none` means the fuel ran out. -/
def mcLoop {S E : Type} (A : ActorSys S E) (check : List (String × S) → Bool)
    (oracle : Nat → Bool)
    (next : SimState S E → List (EventEntry E) → Nat →
      Option (Bool × SimState S E × List (EventEntry E) × Nat))
    (k : Nat) :
    List Nat → SimState S E → List (EventEntry E) → Nat →
      Option (Bool × SimState S E × List (EventEntry E) × Nat)
  | [], s, frame, tchk => some (true, s, frame, tchk)
  | i :: is, s, frame, tchk =>
      if oracle tchk then some (true, s, frame, tchk + 1)
      else
        match getAt? frame i with
        | none => none
        | some ev =>
            let p := stepMC A s (eraseAt frame i ++ [ev])
            match next p.1 p.2 (tchk + 1) with
            | none => none
            | some (res, s2, frame3, tchk2) =>
                let s3 := if res then s2
                  else { s2 with trace := s2.trace ++ [ev] }
                let frame5 := insAt i ev (frame3.take (k - 1))
                let s4 := { s3 with actors := s.actors, canceled := s.canceled, eventCount := s.eventCount, rng := s.rng }
                if res then mcLoop A check oracle next k is s4 frame5 tchk2
                else some (false, s4, frame5, tchk2)

/-- `Simulation::model_checking_step` (sim.rs lines 245-320), with a fuel
bound for the (in the source potentially unbounded) recursion: `none`
means the fuel ran out before the call returned. -/
def mcStep {S E : Type} (A : ActorSys S E) (check : List (String × S) → Bool)
    (oracle : Nat → Bool) :
    Nat → SimState S E → List (EventEntry E) → Nat →
      Option (Bool × SimState S E × List (EventEntry E) × Nat)
  | 0, _, _, _ => none
  | fuel + 1, s, frame, tchk =>
      if frame.length = 0 then some (check s.actors, s, frame, tchk)
      else
        mcLoop A check oracle (mcStep A check oracle fuel) frame.length
          (List.range frame.length) s frame tchk

/-- The oracle of a deadline that never arrives. -/
def noTimeout : Nat → Bool := fun _ => false

/-- The part of the simulator state the checker snapshots and restores
(sim.rs lines 260-266 and 309-314): actor states, cancellation set, event
counter, RNG.  The clock, the undelivered log and the trace are not in the
snapshot, and none of them feeds back into dispatch: a checker-driven step
overwrites the clock with the selected event's time before any use. -/
structure MCCore (S : Type) where
  actors : List (String × S)
  canceled : List Nat
  eventCount : Nat
  rng : List Rat
deriving DecidableEq

def coreOf {S E : Type} (s : SimState S E) : MCCore S :=
  ⟨s.actors, s.canceled, s.eventCount, s.rng⟩

def coreState {S : Type} (E : Type) (c : MCCore S) : SimState S E :=
  ⟨0, c.actors, [], c.canceled, [], c.eventCount, c.rng, []⟩

/-- Exploring one selection: move `frame[i]` to the back, run one
checker-driven step from the snapshot-relevant state. -/
def mcChoose {S E : Type} (A : ActorSys S E) (c : MCCore S)
    (frame : List (EventEntry E)) (i : Nat) :
    MCCore S × List (EventEntry E) :=
  match getAt? frame i with
  | none => (c, frame)
  | some ev =>
      let p := stepMC A (coreState E c) (eraseAt frame i ++ [ev])
      (coreOf p.1, p.2)

/-- A violating leaf is reachable from `(c, frame)` by some sequence of
event selections: the logical reading of "the DFS reaches a state where
`check(actors)` is false". -/
inductive mcReach {S E : Type} (A : ActorSys S E)
    (check : List (String × S) → Bool) :
    MCCore S → List (EventEntry E) → Prop
  | leaf (c : MCCore S) : check c.actors = false → mcReach A check c []
  | pick (c : MCCore S) (frame : List (EventEntry E)) (i : Nat) :
      i < frame.length →
      mcReach A check (mcChoose A c frame i).1 (mcChoose A c frame i).2 →
      mcReach A check c frame

/-! ## System events, network and node wrapper (system.rs, net.rs, node.rs) -/

/-- Mirrors `SysEvent` (system.rs lines 23-45). -/
inductive SysEvent (M : Type) where
  | MessageSend (msg : M) (src : String) (dest : String)
  | MessageReceive (msg : M) (src : String) (dest : String)
  | LocalMessageReceive (msg : M)
  | TimerSet (name : String) (delay : Rat)
  | TimerFired (name : String)
deriving DecidableEq

/-- Mirrors `LocalEventType` (node.rs lines 95-99). -/
inductive LocalEventType where
  | LocalMessageSend
  | LocalMessageReceive
deriving DecidableEq

/-- Mirrors `LocalEvent` (node.rs lines 101-106). -/
structure LocalEvent (M : Type) where
  time : Rat
  msg : Option M
  tip : LocalEventType
deriving DecidableEq

/-- Mirrors the fields of `Network` (net.rs lines 10-22). -/
structure Network where
  minDelay : Rat
  maxDelay : Rat
  dropRate : Rat
  duplRate : Rat
  corruptRate : Rat
  crashedNodes : List String
  dropIncoming : List String
  dropOutgoing : List String
  disabledLinks : List (String × String)
  messageCount : Nat
  traffic : Nat
deriving DecidableEq

/-- `Network::new` (net.rs lines 25-39). -/
def networkNew : Network :=
  ⟨1, 1, 0, 0, 0, [], [], [], [], 0, 0⟩

/-- `Network::reset_network` (net.rs lines 114-118): clears the disabled
links and the drop-incoming/outgoing sets; nothing else. -/
def resetNetwork (n : Network) : Network :=
  { n with disabledLinks := [], dropIncoming := [], dropOutgoing := [] }

/-- One `ctx.rand()` call: the head of the RNG stream and the rest. -/
def rdraw (rng : List Rat) : Rat × List Rat :=
  (rng.headD 0, rng.tail)

/-- `impl Actor for Network`, `on` (net.rs lines 129-169).  Only
`MessageSend` does anything.  A send from a crashed node is discarded
without consuming the RNG.  Otherwise one draw feeds the drop gate
(`rand() >= drop_rate`, drawn before the `&&`-chain short-circuits), one
the delay, one the (no-op) corruption gate, one the duplication gate; when
`rand() >= dupl_rate` fails, a fifth draw sets the copy count
`ceil(r * 2) + 1`.  The message counter and traffic rise on every
`MessageSend`, dropped or not. -/
def networkOn {M : Type} (msize : M → Nat) (net : Network)
    (event : SysEvent M) (c : CtxIn (SysEvent M)) :
    CtxOut Network (SysEvent M) :=
  match event with
  | SysEvent.MessageSend msg src dest =>
      let sz := msize msg
      let pol : List (CtxEvent (SysEvent M)) × List Rat :=
        if src ∈ net.crashedNodes then ([], c.rng)
        else
          let d1 := rdraw c.rng
          if net.dropRate ≤ d1.1 ∧ src ∉ net.dropOutgoing ∧
              dest ∉ net.dropIncoming ∧ (src, dest) ∉ net.disabledLinks then
            let d2 := rdraw d1.2
            let delay := net.minDelay + d2.1 * (net.maxDelay - net.minDelay)
            let d3 := rdraw d2.2
            let d4 := rdraw d3.2
            let e := SysEvent.MessageReceive msg src dest
            if net.duplRate ≤ d4.1 then ([⟨e, dest, delay⟩], d4.2)
            else
              let d5 := rdraw d4.2
              let dups := (d5.1 * 2).ceil.toNat + 1
              (List.replicate dups ⟨e, dest, delay⟩, d5.2)
          else ([], d1.2)
      ⟨{ net with messageCount := net.messageCount + 1, traffic := net.traffic + sz }, pol.1, [], pol.2⟩
  | _ => ⟨net, [], [], c.rng⟩

/-- `HashMap` lookup for a general key. -/
def pmGet {K V : Type} [DecidableEq K] : List (K × V) → K → Option V
  | [], _ => none
  | (k, v) :: rest, key => if k = key then some v else pmGet rest key

/-- `HashMap::insert` for a general key. -/
def pmSet {K V : Type} [DecidableEq K] : List (K × V) → K → V → List (K × V)
  | [], key, v => [(key, v)]
  | (k, w) :: rest, key, v =>
      if k = key then (key, v) :: rest else (k, w) :: pmSet rest key v

/-- `HashMap::remove` for a general key. -/
def pmErase {K V : Type} [DecidableEq K] (l : List (K × V)) (key : K) :
    List (K × V) :=
  l.filter (fun p => p.1 ≠ key)

/-- The state a node handler works on through `Context` (node.rs lines
22-48): the view of the wrapper's fields plus the underlying
`ActorContext` (address, kernel time, next event id, RNG, emission and
cancellation buffers). -/
structure NodeCtxState (M : Type) where
  acId : String
  time : Rat
  nextEventId : Nat
  rng : List Rat
  events : List (CtxEvent (SysEvent M))
  canceledEv : List Nat
  timers : List ((String × String) × Nat)
  localEvents : List (LocalEvent M)
  localMailbox : List M
  sentCount : Nat
  clockSkew : Rat

/-- `Context::time` (node.rs lines 50-52): kernel time plus clock skew. -/
def ctxTime {M : Type} (st : NodeCtxState M) : Rat :=
  st.time + st.clockSkew

/-- `ActorContext::emit` (sim.rs lines 99-104): push the event, bump
`next_event_id`, return the pre-bump value (the id the kernel will give
this event). -/
def ctxEmit {M : Type} (st : NodeCtxState M) (ev : SysEvent M)
    (dest : String) (delay : Rat) : Nat × NodeCtxState M :=
  (st.nextEventId,
   { st with
     events := st.events ++ [⟨ev, dest, delay⟩],
     nextEventId := st.nextEventId + 1 })

/-- `Context::send` (node.rs lines 54-65): a self-addressed send emits a
`MessageReceive` straight to the node with zero delay; anything else wraps
the message in a `MessageSend` addressed to `net` with zero delay; either
way the sent counter rises. -/
def ctxSend {M : Type} (st : NodeCtxState M) (msg : M) (dest : String) :
    NodeCtxState M :=
  if st.acId = dest then
    let r := ctxEmit st (SysEvent.MessageReceive msg st.acId dest) dest 0
    { r.2 with sentCount := r.2.sentCount + 1 }
  else
    let r := ctxEmit st (SysEvent.MessageSend msg st.acId dest) "net" 0
    { r.2 with sentCount := r.2.sentCount + 1 }

/-- `Context::send_local` (node.rs lines 67-76): log (at skewed time) and
mailbox. -/
def ctxSendLocal {M : Type} (st : NodeCtxState M) (msg : M) :
    NodeCtxState M :=
  { st with
    localEvents := st.localEvents ++
      [⟨ctxTime st, some msg, LocalEventType.LocalMessageSend⟩],
    localMailbox := st.localMailbox ++ [msg] }

/-- `Context::set_timer` (node.rs lines 78-82): emit a fresh `TimerFired`
to this node and overwrite the timer-table entry with the new event id.
The source does not cancel a previously recorded event. -/
def ctxSetTimer {M : Type} (st : NodeCtxState M) (name : String)
    (delay : Rat) : NodeCtxState M :=
  let r := ctxEmit st (SysEvent.TimerFired name) st.acId delay
  { r.2 with timers := pmSet r.2.timers (st.acId, name) r.1 }

/-- `Context::cancel_timer` (node.rs lines 84-88): drop the table entry
and queue a cancellation for the recorded id, if any. -/
def ctxCancelTimer {M : Type} (st : NodeCtxState M) (name : String) :
    NodeCtxState M :=
  match pmGet st.timers (st.acId, name) with
  | none => st
  | some eid =>
      { st with
        timers := pmErase st.timers (st.acId, name),
        canceledEv := st.canceledEv ++ [eid] }

/-- Mirrors `NodeStatus` (node.rs lines 108-111). -/
inductive NodeStatus where
  | Healthy
  | Crashed
deriving DecidableEq

/-- Mirrors the fields of `NodeActor` (node.rs lines 142-151), with the
user node's state as an opaque `NS`. -/
structure NodeActorS (NS M : Type) where
  node : NS
  timers : List ((String × String) × Nat)
  localEvents : List (LocalEvent M)
  localMailbox : List M
  status : NodeStatus
  sentCount : Nat
  receivedCount : Nat
  clockSkew : Rat
deriving DecidableEq

/-- `NodeActor::new` (node.rs lines 153-165). -/
def nodeActorNew {NS M : Type} (node : NS) : NodeActorS NS M :=
  ⟨node, [], [], [], NodeStatus.Healthy, 0, 0, 0⟩

/-- The user node's three handlers (the `Node` trait, node.rs lines
13-20), each returning the new node state and the worked-on context. -/
structure NodeImpl (NS M : Type) where
  onMessage : NS → M → String → NodeCtxState M → NS × NodeCtxState M
  onLocalMessage : NS → M → NodeCtxState M → NS × NodeCtxState M
  onTimer : NS → String → NodeCtxState M → NS × NodeCtxState M

/-- `Context::new` as `NodeActor::on` builds it: wrapper fields plus the
actor context, with fresh emission/cancellation buffers. -/
def mkNodeCtx {NS M : Type} (a : NodeActorS NS M) (c : CtxIn (SysEvent M)) :
    NodeCtxState M :=
  ⟨c.id, c.time, c.nextEventId, c.rng, [], [], a.timers, a.localEvents,
    a.localMailbox, a.sentCount, a.clockSkew⟩

/-- Fold a finished handler context back into the wrapper and the actor
protocol's output. -/
def packNodeOut {NS M : Type} (a : NodeActorS NS M) (ns : NS)
    (st : NodeCtxState M) (recvInc : Nat) :
    CtxOut (NodeActorS NS M) (SysEvent M) :=
  ⟨{ a with
     node := ns, timers := st.timers, localEvents := st.localEvents,
     localMailbox := st.localMailbox, sentCount := st.sentCount,
     receivedCount := a.receivedCount + recvInc },
   st.events, st.canceledEv, st.rng⟩

/-- `impl Actor for NodeActor`, `on` (node.rs lines 196-234): a crashed
wrapper ignores everything; a healthy one dispatches `MessageReceive` to
`on_message` (bumping the received counter), `LocalMessageReceive` to
`on_local_message` (logging the receipt at kernel time first), and
`TimerFired` to `on_timer` (removing the timer-table entry first); other
events are ignored. -/
def nodeActorOn {NS M : Type} (impl : NodeImpl NS M) (a : NodeActorS NS M)
    (event : SysEvent M) (c : CtxIn (SysEvent M)) :
    CtxOut (NodeActorS NS M) (SysEvent M) :=
  match a.status with
  | NodeStatus.Crashed => ⟨a, [], [], c.rng⟩
  | NodeStatus.Healthy =>
      match event with
      | SysEvent.MessageReceive msg src _ =>
          let r := impl.onMessage a.node msg src (mkNodeCtx a c)
          packNodeOut a r.1 r.2 1
      | SysEvent.LocalMessageReceive msg =>
          let a1 := { a with localEvents := a.localEvents ++
            [⟨c.time, some msg, LocalEventType.LocalMessageReceive⟩] }
          let r := impl.onLocalMessage a1.node msg (mkNodeCtx a1 c)
          packNodeOut a1 r.1 r.2 0
      | SysEvent.TimerFired name =>
          let a1 := { a with timers := pmErase a.timers (c.id, name) }
          let r := impl.onTimer a1.node name (mkNodeCtx a1 c)
          packNodeOut a1 r.1 r.2 0
      | _ => ⟨a, [], [], c.rng⟩

/-- A `NodeActor` as a kernel actor: `is_active` is the `Healthy` check
(node.rs lines 236-238). -/
def nodeActorSys {NS M : Type} (impl : NodeImpl NS M) :
    ActorSys (NodeActorS NS M) (SysEvent M) :=
  ⟨fun _ a e c => nodeActorOn impl a e c,
   fun _ a =>
     match a.status with
     | NodeStatus.Healthy => true
     | NodeStatus.Crashed => false⟩

/-- The `System` facade state relevant to node registration (system.rs
lines 47-53): the node registry, the id list, the crashed set and the
network actor.  (The kernel's actor registry receives the same wrapper via
`sim.add_actor`.) -/
structure SystemS (NS M : Type) where
  nodes : List (String × NodeActorS NS M)
  nodeIds : List String
  crashedNodes : List String
  net : Network

/-- `Network::node_recovered` (net.rs lines 67-69). -/
def netNodeRecovered (n : Network) (nodeId : String) : Network :=
  { n with crashedNodes := n.crashedNodes.filter (fun x => x ≠ nodeId) }

/-- `System::add_node` (system.rs lines 75-101): always wraps the supplied
node in a brand-new `NodeActor` and registers it (in the kernel and) under
its id in the node registry; a previously crashed id is additionally
cleared from the crashed sets (recover), an existing healthy id is only
replaced (restart), a new id is appended to the id list. -/
def addNode {NS M : Type} (sys : SystemS NS M) (nodeId : String) (node : NS) :
    SystemS NS M :=
  let actor : NodeActorS NS M := nodeActorNew node
  if (amGet sys.nodes nodeId).isSome then
    if nodeId ∈ sys.crashedNodes then
      { sys with
        crashedNodes := sys.crashedNodes.filter (fun x => x ≠ nodeId),
        net := netNodeRecovered sys.net nodeId,
        nodes := amSet sys.nodes nodeId actor }
    else { sys with nodes := amSet sys.nodes nodeId actor }
  else
    { sys with
      nodeIds := sys.nodeIds ++ [nodeId],
      nodes := amSet sys.nodes nodeId actor }

/-- Network-state equality on exactly the fields the claim about
`reset_network` does not except: everything but the crashed-node set, the
delay bounds and the drop/duplicate/corrupt rate knobs. -/
def netEqModClaim (a b : Network) : Prop :=
  a.dropIncoming = b.dropIncoming ∧ a.dropOutgoing = b.dropOutgoing ∧
    a.disabledLinks = b.disabledLinks ∧ a.messageCount = b.messageCount ∧
    a.traffic = b.traffic

instance (a b : Network) : Decidable (netEqModClaim a b) := by
  unfold netEqModClaim; infer_instance

/-- A crashed wrapper with nonempty counters, and a registry holding it. -/
def wOldNode : NodeActorS Nat Nat :=
  ⟨3, [(("x", "t"), 4)], [⟨0, some 1, LocalEventType.LocalMessageSend⟩],
    [2], NodeStatus.Crashed, 5, 7, 0⟩

def wSys : SystemS Nat Nat := ⟨[("x", wOldNode)], ["x"], ["x"], networkNew⟩

/-- The network of the duplication scenarios: fresh but with
`dupl_rate = 1.0`. -/
def wNet : Network := { networkNew with duplRate := 1 }

/-- A state for the clock scenarios: no actors, two pending events at
times 1 and 2. -/
def c7s0 : SimState Nat Nat := ⟨0, [], [], [], [], 3, [], []⟩

def c7e1 : EventEntry Nat := ⟨1, 1, "a", "x", 0⟩

def c7e2 : EventEntry Nat := ⟨2, 2, "a", "x", 0⟩

/-- An actor whose handler emits one event with delay `-1` — nothing in
the kernel rejects a negative delay. -/
def c7negBeh : ActorSys Nat Nat :=
  ⟨fun _ st _ c => ⟨st, [⟨0, "n", -1⟩], [], c.rng⟩, fun _ _ => true⟩

def c7n0 : SimState Nat Nat := ⟨0, [("n", 0)], [⟨0, 5, "a", "n", 0⟩], [], [], 1, [], []⟩

def c7ne0 : EventEntry Nat := ⟨0, 5, "a", "n", 0⟩

def c7ne1 : EventEntry Nat := ⟨1, (5 : Rat) + -1, "n", "n", 0⟩

/-- A node that on its local message sets timer `t` twice (delays 1 then
2) and counts how often `on_timer` runs. -/
def cexImpl : NodeImpl Nat Unit :=
  ⟨fun ns _ _ ctx => (ns, ctx),
   fun ns _ ctx => (ns, ctxSetTimer (ctxSetTimer ctx "t" 1) "t" 2),
   fun ns _ ctx => (ns + 1, ctx)⟩

def cexA : ActorSys (NodeActorS Nat Unit) (SysEvent Unit) :=
  nodeActorSys cexImpl

def cexSim0 : SimState (NodeActorS Nat Unit) (SysEvent Unit) :=
  initSim [("n", nodeActorNew 0)] []
    [(SysEvent.LocalMessageReceive (), "l", "n", 0)]

def cexE0 : EventEntry (SysEvent Unit) :=
  ⟨0, (0 : Rat) + 0, "l", "n", SysEvent.LocalMessageReceive ()⟩

def cexE1 : EventEntry (SysEvent Unit) :=
  ⟨1, (0 : Rat) + 0 + 1, "n", "n", SysEvent.TimerFired "t"⟩

def cexE2 : EventEntry (SysEvent Unit) :=
  ⟨2, (0 : Rat) + 0 + 2, "n", "n", SysEvent.TimerFired "t"⟩

def cexS1 : SimState (NodeActorS Nat Unit) (SysEvent Unit) :=
  stepOn cexA cexSim0 cexE0 []

def cexS2 : SimState (NodeActorS Nat Unit) (SysEvent Unit) :=
  stepOn cexA cexS1 cexE1 [cexE2]

def cexS3 : SimState (NodeActorS Nat Unit) (SysEvent Unit) :=
  stepOn cexA cexS2 cexE2 []

/-- A node handler context with a pending timer entry for `("n", "t")`
recorded under event id 2. -/
def wCtxSt : NodeCtxState Nat :=
  ⟨"n", 0, 5, [], [], [], [(("n", "t"), 2)], [], [], 0, 0⟩

/-! ## Order facts about the source's `Ord for EventEntry` -/

lemma cmpRat_gt_iff (a b : Rat) : cmpRat a b = Ordering.gt ↔ b < a := by
  unfold cmpRat
  split_ifs with h1 h2
  · exact iff_of_false (by decide) (not_lt.mpr h1.le)
  · exact iff_of_true rfl h2
  · exact iff_of_false (by decide) h2

lemma cmpRat_eq_iff (a b : Rat) : cmpRat a b = Ordering.eq ↔ a = b := by
  unfold cmpRat
  split_ifs with h1 h2
  · exact iff_of_false (by decide) (ne_of_lt h1)
  · exact iff_of_false (by decide) (ne_of_gt h2)
  · exact iff_of_true rfl (le_antisymm (not_lt.mp h2) (not_lt.mp h1))

lemma cmpRat_lt_iff (a b : Rat) : cmpRat a b = Ordering.lt ↔ a < b := by
  unfold cmpRat
  split_ifs with h1 h2
  · exact iff_of_true rfl h1
  · exact iff_of_false (by decide) (not_lt.mpr h2.le)
  · exact iff_of_false (by decide) h1

lemma cmpNat_gt_iff (a b : Nat) : cmpNat a b = Ordering.gt ↔ b < a := by
  unfold cmpNat
  split_ifs with h1 h2
  · exact iff_of_false (by decide) (not_lt.mpr h1.le)
  · exact iff_of_true rfl h2
  · exact iff_of_false (by decide) h2

lemma cmpNat_eq_iff (a b : Nat) : cmpNat a b = Ordering.eq ↔ a = b := by
  unfold cmpNat
  split_ifs with h1 h2
  · exact iff_of_false (by decide) (Nat.ne_of_lt h1)
  · exact iff_of_false (by decide) (Ne.symm (Nat.ne_of_lt h2))
  · exact iff_of_true rfl (Nat.le_antisymm (Nat.not_lt.mp h2) (Nat.not_lt.mp h1))

lemma cmpNat_lt_iff (a b : Nat) : cmpNat a b = Ordering.lt ↔ a < b := by
  unfold cmpNat
  split_ifs with h1 h2
  · exact iff_of_true rfl h1
  · exact iff_of_false (by decide) (not_lt.mpr h2.le)
  · exact iff_of_false (by decide) h1

lemma ordThen_gt (o p : Ordering) :
    o.then p = Ordering.gt ↔ (o = Ordering.gt ∨ (o = Ordering.eq ∧ p = Ordering.gt)) := by
  cases o <;> cases p <;> decide

lemma ordThen_eq (o p : Ordering) :
    o.then p = Ordering.eq ↔ (o = Ordering.eq ∧ p = Ordering.eq) := by
  cases o <;> cases p <;> decide

lemma ordThen_lt (o p : Ordering) :
    o.then p = Ordering.lt ↔ (o = Ordering.lt ∨ (o = Ordering.eq ∧ p = Ordering.lt)) := by
  cases o <;> cases p <;> decide

lemma entryCmp_gt_iff {E : Type} (a b : EventEntry E) :
    entryCmp a b = Ordering.gt ↔
      (a.time < b.time ∨ (a.time = b.time ∧ a.id < b.id)) := by
  unfold entryCmp
  rw [ordThen_gt, cmpRat_gt_iff, cmpRat_eq_iff, cmpNat_gt_iff]
  constructor
  · rintro (h | ⟨h1, h2⟩)
    · exact Or.inl h
    · exact Or.inr ⟨h1.symm, h2⟩
  · rintro (h | ⟨h1, h2⟩)
    · exact Or.inl h
    · exact Or.inr ⟨h1.symm, h2⟩

lemma entryCmp_eq_iff {E : Type} (a b : EventEntry E) :
    entryCmp a b = Ordering.eq ↔ (a.time = b.time ∧ a.id = b.id) := by
  unfold entryCmp
  rw [ordThen_eq, cmpRat_eq_iff, cmpNat_eq_iff]
  constructor
  · rintro ⟨h1, h2⟩; exact ⟨h1.symm, h2.symm⟩
  · rintro ⟨h1, h2⟩; exact ⟨h1.symm, h2.symm⟩

lemma entryCmp_lt_iff {E : Type} (a b : EventEntry E) :
    entryCmp a b = Ordering.lt ↔
      (b.time < a.time ∨ (b.time = a.time ∧ b.id < a.id)) := by
  unfold entryCmp
  rw [ordThen_lt, cmpRat_lt_iff, cmpRat_eq_iff, cmpNat_lt_iff]

lemma entryCmp_ne_lt_iff {E : Type} (a b : EventEntry E) :
    entryCmp a b ≠ Ordering.lt ↔ dispatchLE a b := by
  unfold dispatchLE
  rw [ne_eq, entryCmp_lt_iff]
  constructor
  · intro h
    rcases lt_trichotomy a.time b.time with ht | ht | ht
    · exact Or.inl ht
    · refine Or.inr ⟨ht, ?_⟩
      by_contra hid
      exact h (Or.inr ⟨ht.symm, Nat.lt_of_not_le hid⟩)
    · exact absurd (Or.inl ht) h
  · rintro (h | ⟨h1, h2⟩) hlt
    · rcases hlt with hl | ⟨hl, _⟩
      · exact absurd h (not_lt.mpr hl.le)
      · exact absurd h (not_lt.mpr hl.le)
    · rcases hlt with hl | ⟨hl, hid⟩
      · exact absurd hl (not_lt.mpr h1.le)
      · exact absurd h2 (Nat.not_le.mpr hid)

lemma popRel_mem {E : Type} {l rest : List (EventEntry E)} {e : EventEntry E}
    (h : popRel l e rest) : e ∈ l := by
  obtain ⟨⟨l1, l2, hl, _⟩, _⟩ := h
  subst hl
  exact List.mem_append.mpr (Or.inr (List.mem_cons_self e l2))

lemma popRel_min {E : Type} {l rest : List (EventEntry E)} {e : EventEntry E}
    (h : popRel l e rest) : ∀ f ∈ l, dispatchLE e f := by
  intro f hf
  exact (entryCmp_ne_lt_iff e f).mp (h.2 f hf)

lemma stepRel_some_pop {S E : Type} {A : ActorSys S E} {s s' : SimState S E}
    {e : EventEntry E} (h : stepRel A s (some e) s') :
    ∃ rest, popRel s.events e rest ∧ s' = stepOn A s e rest := by
  rcases h with ⟨_, ho, _⟩ | ⟨e', rest, hpop, ho, hs⟩
  · exact absurd ho (by simp)
  · obtain rfl : e' = e := (Option.some.inj ho).symm
    exact ⟨rest, hpop, hs⟩

lemma dispatchLE_refl {E : Type} (a : EventEntry E) : dispatchLE a a :=
  Or.inr ⟨rfl, le_refl _⟩

lemma dispatchLE_trans {E : Type} {a b c : EventEntry E}
    (h1 : dispatchLE a b) (h2 : dispatchLE b c) : dispatchLE a c := by
  rcases h1 with h1 | ⟨h1t, h1i⟩ <;> rcases h2 with h2 | ⟨h2t, h2i⟩
  · exact Or.inl (h1.trans h2)
  · exact Or.inl (h2t ▸ h1)
  · exact Or.inl (h1t ▸ h2)
  · exact Or.inr ⟨h1t.trans h2t, h1i.trans h2i⟩

lemma dispatchLE_total {E : Type} (a b : EventEntry E) :
    dispatchLE a b ∨ dispatchLE b a := by
  rcases lt_trichotomy a.time b.time with h | h | h
  · exact Or.inl (Or.inl h)
  · rcases Nat.le_total a.id b.id with hi | hi
    · exact Or.inl (Or.inr ⟨h, hi⟩)
    · exact Or.inr (Or.inr ⟨h.symm, hi⟩)
  · exact Or.inr (Or.inl h)

lemma dispatchLE_antisymm {E : Type} {a b : EventEntry E}
    (h1 : dispatchLE a b) (h2 : dispatchLE b a) :
    a.time = b.time ∧ a.id = b.id := by
  rcases h1 with h1 | ⟨h1t, h1i⟩ <;> rcases h2 with h2 | ⟨h2t, h2i⟩
  · exact absurd h2 (not_lt.mpr h1.le)
  · exact absurd h1 (by rw [h2t]; exact lt_irrefl _)
  · exact absurd h2 (by rw [h1t]; exact lt_irrefl _)
  · exact ⟨h1t, Nat.le_antisymm h1i h2i⟩

lemma popMinF_none_iff {E : Type} (l : List (EventEntry E)) :
    popMinF l = none ↔ l = [] := by
  cases l with
  | nil => simp [popMinF]
  | cons e rest =>
      simp only [popMinF]
      cases popMinF rest with
      | none => simp
      | some p =>
          obtain ⟨m, rest'⟩ := p
          by_cases h : dispatchLEb e m <;> simp [h]

lemma popMinF_popRel {E : Type} :
    ∀ {l : List (EventEntry E)} {e : EventEntry E} {rest : List (EventEntry E)},
      popMinF l = some (e, rest) → popRel l e rest := by
  intro l
  induction l with
  | nil => intro e rest h; simp [popMinF] at h
  | cons a t ih =>
      intro e rest h
      cases hm : popMinF t with
      | none =>
          rw [popMinF, hm] at h
          obtain rfl : t = [] := (popMinF_none_iff t).mp hm
          obtain ⟨rfl, rfl⟩ : a = e ∧ ([] : List (EventEntry E)) = rest := by
            simpa using h
          refine ⟨⟨[], [], rfl, rfl⟩, ?_⟩
          intro f hf
          obtain rfl : f = a := by simpa using hf
          rw [entryCmp_ne_lt_iff]
          exact dispatchLE_refl f
      | some p =>
          obtain ⟨m, rest'⟩ := p
          rw [popMinF, hm] at h
          dsimp only at h
          have hrel := ih hm
          by_cases hb : dispatchLEb a m
          · rw [if_pos hb] at h
            obtain ⟨rfl, rfl⟩ : a = e ∧ t = rest := by simpa using h
            have ham : dispatchLE a m := of_decide_eq_true hb
            refine ⟨⟨[], t, rfl, rfl⟩, ?_⟩
            intro f hf
            rw [entryCmp_ne_lt_iff]
            rcases List.mem_cons.mp hf with rfl | hft
            · exact dispatchLE_refl f
            · exact dispatchLE_trans ham (popRel_min hrel f hft)
          · rw [if_neg hb] at h
            obtain ⟨rfl, rfl⟩ : m = e ∧ a :: rest' = rest := by simpa using h
            have hmin := popRel_min hrel
            obtain ⟨⟨l1, l2, hdec, hrest⟩, _⟩ := hrel
            refine ⟨⟨a :: l1, l2, by rw [List.cons_append, ← hdec],
              by rw [List.cons_append, ← hrest]⟩, ?_⟩
            intro f hf
            rw [entryCmp_ne_lt_iff]
            rcases List.mem_cons.mp hf with rfl | hft
            · have hnb : ¬ dispatchLE f m := fun hc => hb (decide_eq_true hc)
              exact (dispatchLE_total m f).resolve_right hnb
            · exact hmin f hft

lemma distinct_ids_eq {E : Type} :
    ∀ {l : List (EventEntry E)},
      l.Pairwise (fun x y => x.id ≠ y.id) →
      ∀ x ∈ l, ∀ y ∈ l, x.id = y.id → x = y := by
  intro l
  induction l with
  | nil => intro _ x hx; simp at hx
  | cons a t ih =>
      intro hp x hx y hy hid
      have hhead := (List.pairwise_cons.mp hp).1
      have htail := (List.pairwise_cons.mp hp).2
      rcases List.mem_cons.mp hx with rfl | hx' <;>
        rcases List.mem_cons.mp hy with rfl | hy'
      · rfl
      · exact absurd hid (hhead y hy')
      · exact absurd hid.symm (hhead x hx')
      · exact ih htail x hx' y hy' hid

lemma distinct_decomp {E : Type} :
    ∀ {l1 l1' l2 l2' : List (EventEntry E)} {e : EventEntry E},
      (l1 ++ e :: l2).Pairwise (fun x y => x.id ≠ y.id) →
      l1 ++ e :: l2 = l1' ++ e :: l2' → l1 = l1' ∧ l2 = l2' := by
  intro l1
  induction l1 with
  | nil =>
      intro l1' l2 l2' e hp heq
      cases l1' with
      | nil => simpa using heq
      | cons x t' =>
          simp only [List.nil_append, List.cons_append, List.cons.injEq] at heq
          obtain ⟨rfl, h2⟩ := heq
          have hmem : e ∈ t' ++ e :: l2' := List.mem_append.mpr (Or.inr (List.mem_cons_self e l2'))
          rw [← h2] at hmem
          have := (List.pairwise_cons.mp hp).1 e hmem
          exact absurd rfl this
  | cons a t ih =>
      intro l1' l2 l2' e hp heq
      cases l1' with
      | nil =>
          simp only [List.nil_append, List.cons_append, List.cons.injEq] at heq
          obtain ⟨rfl, h2⟩ := heq
          have hmem : a ∈ t ++ a :: l2 :=
            List.mem_append.mpr (Or.inr (List.mem_cons_self a l2))
          have := (List.pairwise_cons.mp hp).1 a hmem
          exact absurd rfl this
      | cons x t' =>
          simp only [List.cons_append, List.cons.injEq] at heq
          obtain ⟨rfl, h2⟩ := heq
          have hp' : (t ++ e :: l2).Pairwise (fun x y => x.id ≠ y.id) :=
            (List.pairwise_cons.mp hp).2
          obtain ⟨h3, h4⟩ := ih hp' h2
          exact ⟨by rw [h3], h4⟩

lemma popRel_unique {E : Type} {l r1 r2 : List (EventEntry E)}
    {e1 e2 : EventEntry E}
    (hd : l.Pairwise (fun x y => x.id ≠ y.id))
    (h1 : popRel l e1 r1) (h2 : popRel l e2 r2) : e1 = e2 ∧ r1 = r2 := by
  have hm1 := popRel_mem h1
  have hm2 := popRel_mem h2
  have hle1 : dispatchLE e1 e2 := popRel_min h1 e2 hm2
  have hle2 : dispatchLE e2 e1 := popRel_min h2 e1 hm1
  have hid : e1.id = e2.id := (dispatchLE_antisymm hle1 hle2).2
  have he : e1 = e2 := distinct_ids_eq hd e1 hm1 e2 hm2 hid
  subst he
  obtain ⟨⟨l1, l2, hl, hr⟩, _⟩ := h1
  obtain ⟨⟨l1', l2', hl', hr'⟩, _⟩ := h2
  rw [hl] at hd hl'
  obtain ⟨ha, hb⟩ := distinct_decomp hd hl'
  exact ⟨rfl, by rw [hr, hr', ha, hb]⟩

/-! ## Distinct-id invariant and determinism of the step relation -/

/-- Queue ids are below the counter and pairwise distinct — established by
construction (`add_event` hands out `event_count` and increments it) and
preserved by every step. -/
def wfIds {S E : Type} (s : SimState S E) : Prop :=
  (∀ e ∈ s.events, e.id < s.eventCount) ∧
    s.events.Pairwise (fun x y => x.id ≠ y.id)

lemma mkEntriesFrom_id_bounds {E : Type} :
    ∀ (cs : List (CtxEvent E)) (count : Nat) (t : Rat) (src : String)
      (e : EventEntry E), e ∈ mkEntriesFrom count t src cs →
      count ≤ e.id ∧ e.id < count + cs.length := by
  intro cs
  induction cs with
  | nil => intro count t src e h; simp [mkEntriesFrom] at h
  | cons c rest ih =>
      intro count t src e h
      rcases List.mem_cons.mp h with rfl | h'
      · refine ⟨Nat.le_refl _, ?_⟩
        show count < count + (rest.length + 1)
        omega
      · obtain ⟨h1, h2⟩ := ih (count + 1) t src e h'
        refine ⟨Nat.le_of_succ_le h1, ?_⟩
        show e.id < count + (rest.length + 1)
        omega

lemma mkEntriesFrom_pairwise {E : Type} :
    ∀ (cs : List (CtxEvent E)) (count : Nat) (t : Rat) (src : String),
      (mkEntriesFrom count t src cs).Pairwise (fun x y => x.id ≠ y.id) := by
  intro cs
  induction cs with
  | nil => intro count t src; simp [mkEntriesFrom]
  | cons c rest ih =>
      intro count t src
      rw [mkEntriesFrom]
      refine List.pairwise_cons.mpr ⟨?_, ih (count + 1) t src⟩
      intro e he
      have := (mkEntriesFrom_id_bounds rest (count + 1) t src e he).1
      exact Nat.ne_of_lt (Nat.lt_of_succ_le this)

lemma popRel_rest_facts {S E : Type} {s : SimState S E} {e : EventEntry E}
    {rest : List (EventEntry E)} (hw : wfIds s) (hp : popRel s.events e rest) :
    (∀ f ∈ rest, f.id < s.eventCount) ∧
      rest.Pairwise (fun x y => x.id ≠ y.id) := by
  obtain ⟨⟨l1, l2, hl, hr⟩, _⟩ := hp
  have hsub : rest.Sublist s.events := by
    rw [hl, hr]
    exact (List.sublist_cons_self e l2).append_left l1
  exact ⟨fun f hf => hw.1 f (hsub.mem hf), hw.2.sublist hsub⟩

lemma stepOn_wf {S E : Type} {A : ActorSys S E} {s : SimState S E}
    {e : EventEntry E} {rest : List (EventEntry E)}
    (hw : wfIds s) (hp : popRel s.events e rest) :
    wfIds (stepOn A s e rest) := by
  obtain ⟨hbound, hpair⟩ := popRel_rest_facts hw hp
  unfold stepOn
  by_cases hc : e.id ∈ s.canceled
  · rw [if_pos hc]
    exact ⟨hbound, hpair⟩
  · rw [if_neg hc]
    unfold dispatchCore
    cases hga : amGet s.actors e.dest with
    | none =>
        simp only [hga]
        constructor
        · intro f hf
          exact hbound f (by simpa using hf)
        · simpa using hpair
    | some st =>
        by_cases hact : A.isActive e.dest st
        · simp only [hga, if_pos hact]
          constructor
          · intro f hf
            rcases List.mem_append.mp hf with hf' | hf'
            · exact Nat.lt_of_lt_of_le (hbound f hf') (Nat.le_add_right _ _)
            · exact (mkEntriesFrom_id_bounds _ _ _ _ f hf').2
          · rw [List.pairwise_append]
            refine ⟨hpair, mkEntriesFrom_pairwise _ _ _ _, ?_⟩
            intro x hx y hy
            have h1 : x.id < s.eventCount := hbound x hx
            have h2 : s.eventCount ≤ y.id :=
              (mkEntriesFrom_id_bounds _ _ _ _ y hy).1
            exact Nat.ne_of_lt (Nat.lt_of_lt_of_le h1 h2)
        · simp only [hga, if_neg hact]
          constructor
          · intro f hf
            exact hbound f (by simpa using hf)
          · simpa using hpair

lemma addEvent_wf {S E : Type} {s : SimState S E} (hw : wfIds s)
    (ev : E) (src dest : String) (d : Rat) :
    wfIds (addEvent s ev src dest d).2 := by
  unfold addEvent wfIds
  constructor
  · intro f hf
    rcases List.mem_append.mp hf with hf' | hf'
    · exact Nat.lt_succ_of_lt (hw.1 f hf')
    · obtain rfl : f = ⟨s.eventCount, s.clock + d, src, dest, ev⟩ := by
        simpa using hf'
      exact Nat.lt_succ_self _
  · rw [List.pairwise_append]
    refine ⟨hw.2, List.pairwise_singleton _ _, ?_⟩
    intro x hx y hy
    obtain rfl : y = ⟨s.eventCount, s.clock + d, src, dest, ev⟩ := by
      simpa using hy
    exact Nat.ne_of_lt (hw.1 x hx)

lemma foldl_addEvent_wf {S E : Type} :
    ∀ (inits : List (E × String × String × Rat)) (s : SimState S E),
      wfIds s →
      wfIds (inits.foldl (fun s i => (addEvent s i.1 i.2.1 i.2.2.1 i.2.2.2).2) s) := by
  intro inits
  induction inits with
  | nil => intro s hw; exact hw
  | cons i rest ih =>
      intro s hw
      exact ih _ (addEvent_wf hw i.1 i.2.1 i.2.2.1 i.2.2.2)

lemma initSim_wf {S E : Type} (actors : List (String × S)) (rng : List Rat)
    (inits : List (E × String × String × Rat)) :
    wfIds (initSim actors rng inits) := by
  refine foldl_addEvent_wf inits _ ?_
  constructor
  · intro e he; simp at he
  · simp

lemma runRel_unique {S E : Type} {A : ActorSys S E} :
    ∀ {n : Nat} {s t1 t2 : SimState S E} {L1 L2 : List (EventEntry E)},
      wfIds s → runRel A s n L1 t1 → runRel A s n L2 t2 →
      L1 = L2 ∧ t1 = t2 := by
  intro n
  induction n with
  | zero =>
      intro s t1 t2 L1 L2 _ h1 h2
      cases h1; cases h2; exact ⟨rfl, rfl⟩
  | succ m ih =>
      intro s t1 t2 L1 L2 hw h1 h2
      cases h1 with
      | empty _ _ he1 =>
          cases h2 with
          | empty _ _ _ => exact ⟨rfl, rfl⟩
          | more _ _ e rest log t hp _ =>
              have := popRel_mem hp
              rw [he1] at this
              simp at this
      | more _ _ e rest log t hp hrun =>
          cases h2 with
          | empty _ _ he2 =>
              have := popRel_mem hp
              rw [he2] at this
              simp at this
          | more _ _ e' rest' log' t' hp' hrun' =>
              obtain ⟨rfl, rfl⟩ := popRel_unique hw.2 hp hp'
              obtain ⟨hL, hT⟩ := ih (stepOn_wf hw hp) hrun hrun'
              exact ⟨by rw [hL], hT⟩

lemma runFun_runRel {S E : Type} (A : ActorSys S E) :
    ∀ (n : Nat) (s : SimState S E),
      runRel A s n (runFun A n s).1 (runFun A n s).2 := by
  intro n
  induction n with
  | zero => intro s; exact runRel.zero s
  | succ m ih =>
      intro s
      cases hp : popMinF s.events with
      | none =>
          rw [runFun, hp]
          exact runRel.empty s m ((popMinF_none_iff _).mp hp)
      | some p =>
          obtain ⟨e, rest⟩ := p
          rw [runFun, hp]
          exact runRel.more s m e rest _ _ (popMinF_popRel hp) (ih _)

/-! ## Claim C1 — determinism of a run -/

/-- C1: for every seed (RNG stream) and every initial event set, two
independent runs of the simulation with the same inputs, stepping with
actors that observe only the supplied context, produce identical dispatch
sequences (the same `EventEntry` records — event, time, source and
destination — in the same order) and identical final states, hence
identical counters.  The two runs are two derivations of the step
relation, in which the heap is free to return any `Ord`-maximal entry. -/
theorem sim_run_deterministic :
    ∀ (S E : Type) (A : ActorSys S E) (actors : List (String × S))
      (rng : List Rat) (inits : List (E × String × String × Rat)) (n : Nat)
      (L1 L2 : List (EventEntry E)) (t1 t2 : SimState S E),
      runRel A (initSim actors rng inits) n L1 t1 →
      runRel A (initSim actors rng inits) n L2 t2 →
      L1 = L2 ∧ t1 = t2 := by
  intro S E A actors rng inits n L1 L2 t1 t2 h1 h2
  exact runRel_unique (initSim_wf actors rng inits) h1 h2

lemma wEvents : wSim0.events = [wEntry0, wEntry1] := by
  simp [wSim0, initSim, wInits, addEvent, wEntry0, wEntry1]

lemma wPop : popRel wSim0.events wEntry1 [wEntry0] := by
  refine ⟨⟨[wEntry0], [], by rw [wEvents]; rfl, rfl⟩, ?_⟩
  rw [wEvents]
  decide

/-- C1 witness: the hypotheses are satisfiable — one run computed by the
executable interpreter, one derived by hand picking the `(time, id)`-least
entry; the theorem forces them to agree. -/
theorem sim_run_deterministic_wit :
    (runFun wBeh 1 wSim0).1 = [wEntry1] :=
  (sim_run_deterministic Nat Nat wBeh [("b", 0)] [] wInits 1
    (runFun wBeh 1 wSim0).1 [wEntry1] (runFun wBeh 1 wSim0).2
    (stepOn wBeh wSim0 wEntry1 [wEntry0])
    (runFun_runRel wBeh 1 wSim0)
    (runRel.more wSim0 0 wEntry1 [wEntry0] []
      (stepOn wBeh wSim0 wEntry1 [wEntry0]) wPop
      (runRel.zero (stepOn wBeh wSim0 wEntry1 [wEntry0])))).1

/-! ## Claim C2 — dispatch order is the total order on (time, id) -/

/-- C2: outside model checking each call to `step` pops (dispatching, or
discarding when canceled) a pending event that is `(time, id)`-minimal
among all queued events; the source's `Ord for EventEntry` is the total
order descending in `time` then `id` (so the max-heap yields the
`(time, id)`-least entry first); and ids are handed out by `add_event` as
the monotonically increasing insertion sequence number. -/
theorem step_dispatches_min_pair :
    (∀ (S E : Type) (A : ActorSys S E) (s : SimState S E) (e : EventEntry E)
        (s' : SimState S E), stepRel A s (some e) s' →
        e ∈ s.events ∧
          ∀ f ∈ s.events, e.time < f.time ∨ (e.time = f.time ∧ e.id ≤ f.id)) ∧
    (∀ (E : Type) (a b : EventEntry E),
        (entryCmp a b = Ordering.gt ↔
            (a.time < b.time ∨ (a.time = b.time ∧ a.id < b.id))) ∧
        (entryCmp a b = Ordering.eq ↔ (a.time = b.time ∧ a.id = b.id)) ∧
        (entryCmp a b = Ordering.lt ↔
            (b.time < a.time ∨ (b.time = a.time ∧ b.id < a.id)))) ∧
    (∀ (S E : Type) (s : SimState S E) (ev : E) (src dest : String) (d : Rat),
        (addEvent s ev src dest d).1 = s.eventCount ∧
        (addEvent s ev src dest d).2.eventCount = s.eventCount + 1) := by
  refine ⟨?_, ?_, ?_⟩
  · intro S E A s e s' h
    obtain ⟨rest, hpop, _⟩ := stepRel_some_pop h
    exact ⟨popRel_mem hpop, fun f hf => popRel_min hpop f hf⟩
  · intro E a b
    exact ⟨entryCmp_gt_iff a b, entryCmp_eq_iff a b, entryCmp_lt_iff a b⟩
  · intro S E s ev src dest d
    exact ⟨rfl, rfl⟩

/-- C2 witness: the step relation holds of a concrete state and the popped
entry is its `(time, id)`-least event. -/
theorem step_dispatches_min_pair_wit :
    wEntry1 ∈ wSim0.events ∧
      ∀ f ∈ wSim0.events,
        wEntry1.time < f.time ∨ (wEntry1.time = f.time ∧ wEntry1.id ≤ f.id) :=
  step_dispatches_min_pair.1 Nat Nat wBeh wSim0 wEntry1
    (stepOn wBeh wSim0 wEntry1 [wEntry0])
    (Or.inr ⟨wEntry1, [wEntry0], wPop, rfl, rfl⟩)

/-! ## Claims C8, C9, C10, C5 — node context, network reset, registration -/

lemma pmGet_pmSet_self {K V : Type} [DecidableEq K] :
    ∀ (l : List (K × V)) (k : K) (v : V), pmGet (pmSet l k v) k = some v := by
  intro l k v
  induction l with
  | nil => simp [pmSet, pmGet]
  | cons p rest ih =>
      by_cases h : p.1 = k
      · obtain ⟨pk, pv⟩ := p
        simp only at h
        simp [pmSet, pmGet, h]
      · obtain ⟨pk, pv⟩ := p
        simp only at h
        simp [pmSet, pmGet, h, ih]

lemma amGet_amSet_self {S : Type} :
    ∀ (l : List (String × S)) (k : String) (v : S),
      amGet (amSet l k v) k = some v := by
  intro l k v
  induction l with
  | nil => simp [amSet, amGet]
  | cons p rest ih =>
      by_cases h : p.1 = k
      · obtain ⟨pk, pv⟩ := p
        simp only at h
        simp [amSet, amGet, h]
      · obtain ⟨pk, pv⟩ := p
        simp only at h
        simp [amSet, amGet, h, ih]

/-- C8: a self-addressed `send` emits exactly one event — a
`MessageReceive` straight to the sending node itself with zero delay (so
the kernel schedules it at `clock + 0 = clock`, the same simulation time)
— bumps the sent counter, and the network actor is not involved: its
handler on a `MessageReceive` returns the network state unchanged (same
`message_count` and `traffic`) and emits nothing. -/
theorem self_send_bypasses_network :
    ∀ (M : Type) (st : NodeCtxState M) (msg : M),
      (ctxSend st msg st.acId).events =
          st.events ++
            [⟨SysEvent.MessageReceive msg st.acId st.acId, st.acId, 0⟩] ∧
      (ctxSend st msg st.acId).sentCount = st.sentCount + 1 ∧
      (∀ (count : Nat) (t : Rat) (src : String),
        mkEntriesFrom count t src
            [⟨SysEvent.MessageReceive msg st.acId st.acId, st.acId, 0⟩] =
          [⟨count, t, src, st.acId,
            SysEvent.MessageReceive msg st.acId st.acId⟩]) ∧
      (∀ (msize : M → Nat) (net : Network) (c : CtxIn (SysEvent M))
          (m2 : M) (src dest : String),
        networkOn msize net (SysEvent.MessageReceive m2 src dest) c =
          ⟨net, [], [], c.rng⟩) := by
  intro M st msg
  refine ⟨?_, ?_, ?_, ?_⟩
  · simp [ctxSend, ctxEmit]
  · simp [ctxSend, ctxEmit]
  · intro count t src
    simp [mkEntriesFrom]
  · intro msize net c m2 src dest
    rfl

/-- C9 amended: `reset_network` is idempotent and a double reset agrees
with a freshly constructed `Network` on the fields it clears (disabled
links, drop-incoming, drop-outgoing) while preserving the crashed-node
set, the delay bounds, the rate knobs, and also the `message_count` and
`traffic` counters — which a fresh network starts at zero. -/
theorem reset_network_square :
    ∀ n : Network,
      resetNetwork (resetNetwork n) = resetNetwork n ∧
      (resetNetwork (resetNetwork n)).disabledLinks =
        networkNew.disabledLinks ∧
      (resetNetwork (resetNetwork n)).dropIncoming =
        networkNew.dropIncoming ∧
      (resetNetwork (resetNetwork n)).dropOutgoing =
        networkNew.dropOutgoing ∧
      (resetNetwork (resetNetwork n)).crashedNodes = n.crashedNodes ∧
      (resetNetwork (resetNetwork n)).minDelay = n.minDelay ∧
      (resetNetwork (resetNetwork n)).maxDelay = n.maxDelay ∧
      (resetNetwork (resetNetwork n)).dropRate = n.dropRate ∧
      (resetNetwork (resetNetwork n)).duplRate = n.duplRate ∧
      (resetNetwork (resetNetwork n)).corruptRate = n.corruptRate ∧
      (resetNetwork (resetNetwork n)).messageCount = n.messageCount ∧
      (resetNetwork (resetNetwork n)).traffic = n.traffic := by
  intro n
  exact ⟨rfl, rfl, rfl, rfl, rfl, rfl, rfl, rfl, rfl, rfl, rfl, rfl⟩

/-- C9 counterexample: a network that has carried one message and is then
reset twice differs from a freshly constructed network on `message_count`,
so the state is not equal to a fresh one modulo only the crashed set, the
delay bounds and the rate knobs — the counters must be excepted too. -/
theorem reset_network_counters_cex :
    ¬ netEqModClaim
        (resetNetwork (resetNetwork { networkNew with messageCount := 1 }))
        networkNew := by
  decide

/-- C10: `add_node` on an already-registered id always installs a freshly
constructed wrapper: its timer table, local-events log, local mailbox,
sent and received counters and clock skew are the initial empty/zero
values and its status is `Healthy` — whether or not the previous instance
had crashed. -/
theorem add_node_fresh_wrapper :
    ∀ (NS M : Type) (sys : SystemS NS M) (nodeId : String) (node : NS)
      (old : NodeActorS NS M),
      amGet sys.nodes nodeId = some old →
      amGet (addNode sys nodeId node).nodes nodeId =
          some (nodeActorNew node) ∧
      (nodeActorNew node : NodeActorS NS M).timers = [] ∧
      (nodeActorNew node : NodeActorS NS M).localEvents = [] ∧
      (nodeActorNew node : NodeActorS NS M).localMailbox = [] ∧
      (nodeActorNew node : NodeActorS NS M).sentCount = 0 ∧
      (nodeActorNew node : NodeActorS NS M).receivedCount = 0 ∧
      (nodeActorNew node : NodeActorS NS M).clockSkew = 0 ∧
      (nodeActorNew node : NodeActorS NS M).status = NodeStatus.Healthy := by
  intro NS M sys nodeId node old hold
  refine ⟨?_, rfl, rfl, rfl, rfl, rfl, rfl, rfl⟩
  unfold addNode
  have hsome : (amGet sys.nodes nodeId).isSome := by rw [hold]; rfl
  rw [if_pos hsome]
  by_cases hc : nodeId ∈ sys.crashedNodes
  · rw [if_pos hc]
    exact amGet_amSet_self sys.nodes nodeId _
  · rw [if_neg hc]
    exact amGet_amSet_self sys.nodes nodeId _

/-- C10 witness: re-registering id `x`, whose previous wrapper had crashed
with nonzero counters, yields the fresh wrapper. -/
theorem add_node_fresh_wrapper_wit :
    amGet (addNode wSys "x" 9).nodes "x" = some (nodeActorNew 9) :=
  (add_node_fresh_wrapper Nat Nat wSys "x" 9 wOldNode (by decide)).1

/-- C5 amended: calling `set_timer(n, d)` while an earlier `TimerFired`
event for `n` is recorded in the timer table emits a new `TimerFired`
event and overwrites the table entry with the new event id, but does NOT
cancel the earlier event: the cancellation buffer is untouched, so the old
event remains scheduled and the timer can fire once per `set_timer` call. -/
theorem set_timer_overwrites_entry :
    ∀ (M : Type) (st : NodeCtxState M) (name : String) (d : Rat)
      (oldId : Nat),
      pmGet st.timers (st.acId, name) = some oldId →
      (ctxSetTimer st name d).canceledEv = st.canceledEv ∧
      pmGet (ctxSetTimer st name d).timers (st.acId, name) =
        some st.nextEventId ∧
      (ctxSetTimer st name d).events =
        st.events ++ [⟨SysEvent.TimerFired name, st.acId, d⟩] ∧
      (ctxSetTimer st name d).nextEventId = st.nextEventId + 1 := by
  intro M st name d oldId hold
  refine ⟨rfl, ?_, rfl, rfl⟩
  exact pmGet_pmSet_self st.timers (st.acId, name) st.nextEventId

/-! ## Claim C6 — the duplication branch -/

lemma ratCeil_facts (q : ℚ) :
    q ≤ (Rat.ceil q : ℚ) ∧ (Rat.ceil q : ℚ) < q + 1 := by
  unfold Rat.ceil
  split_ifs with h
  · have hq : ((q.num : ℚ)) = q := by
      conv_rhs => rw [← Rat.num_div_den q]
      rw [h]
      norm_num
    constructor
    · rw [hq]
    · rw [hq]; linarith
  · rw [← Rat.floor_def]
    have h1 : (⌊q⌋ : ℚ) ≤ q := Int.floor_le q
    have h2 : q < (⌊q⌋ : ℚ) + 1 := Int.lt_floor_add_one q
    have h3 : (⌊q⌋ : ℚ) ≠ q := by
      intro heq
      apply h
      rw [← heq]
      exact Rat.intCast_den ⌊q⌋
    push_cast
    constructor
    · linarith
    · have : (⌊q⌋ : ℚ) < q := lt_of_le_of_ne h1 h3
      linarith

lemma ceil_two_mul_bounds (r : ℚ) (h0 : 0 ≤ r) (h1 : r < 1) :
    ((r * 2).ceil.toNat + 1 = 1 ∨ (r * 2).ceil.toNat + 1 = 2 ∨
        (r * 2).ceil.toNat + 1 = 3) ∧
      (0 < r →
        ((r * 2).ceil.toNat + 1 = 2 ∨ (r * 2).ceil.toNat + 1 = 3)) := by
  obtain ⟨hle, hlt⟩ := ratCeil_facts (r * 2)
  have hub : ((r * 2).ceil : ℚ) < 3 := by linarith
  have hlb : (0 : ℚ) ≤ ((r * 2).ceil : ℚ) := by linarith
  have hub' : (r * 2).ceil < 3 := by exact_mod_cast hub
  have hlb' : (0 : ℤ) ≤ (r * 2).ceil := by exact_mod_cast hlb
  constructor
  · omega
  · intro hpos
    have : (0 : ℚ) < r * 2 := by linarith
    have h1' : (0 : ℚ) < ((r * 2).ceil : ℚ) := lt_of_lt_of_le this hle
    have h1'' : (0 : ℤ) < (r * 2).ceil := by exact_mod_cast h1'
    omega

/-- What `Network::on` emits for a `MessageSend` from a live node that
passes all four drop gates when the duplication gate fires
(`rand() >= dupl_rate` fails): `ceil(r5 * 2) + 1` identical
`MessageReceive` events at the drawn delay. -/
lemma networkOn_dupl_events {M : Type} (msize : M → Nat) (net : Network)
    (msg : M) (src dest : String) (r1 r2 r3 r4 r5 : Rat) (rest : List Rat)
    (c : CtxIn (SysEvent M))
    (hrng : c.rng = r1 :: r2 :: r3 :: r4 :: r5 :: rest)
    (hcr : src ∉ net.crashedNodes)
    (hdrop : net.dropRate ≤ r1)
    (hout : src ∉ net.dropOutgoing) (hin : dest ∉ net.dropIncoming)
    (hlink : (src, dest) ∉ net.disabledLinks)
    (hdupl : ¬ net.duplRate ≤ r4) :
    (networkOn msize net (SysEvent.MessageSend msg src dest) c).events =
      List.replicate ((r5 * 2).ceil.toNat + 1)
        ⟨SysEvent.MessageReceive msg src dest, dest,
          net.minDelay + r2 * (net.maxDelay - net.minDelay)⟩ := by
  obtain ⟨cid, ctime, cnext, crng⟩ := c
  simp only at hrng
  subst hrng
  simp only [networkOn, rdraw, List.headD, List.tail]
  rw [if_neg hcr, if_pos ⟨hdrop, hout, hin, hlink⟩, if_neg hdupl]

/-- C6 amended: when `dupl_rate = 1.0`, every `MessageSend` that passes
the drop gates fires the duplication branch (`rand() >= 1.0` is false for
every draw in `[0, 1)`), emitting `ceil(r * 2) + 1` identical
`MessageReceive` events; that count lies in `{1, 2, 3}` for `r ∈ [0, 1)`
and in `{2, 3}` whenever the count draw is nonzero — a draw of exactly
zero, which `gen_range(0.0 .. 1.0)` can produce, yields a single
emission. -/
theorem dupl_branch_emission_count :
    ∀ (M : Type) (msize : M → Nat) (net : Network) (msg : M)
      (src dest : String) (r1 r2 r3 r4 r5 : Rat) (rest : List Rat)
      (c : CtxIn (SysEvent M)),
      c.rng = r1 :: r2 :: r3 :: r4 :: r5 :: rest →
      net.duplRate = 1 →
      0 ≤ r4 → r4 < 1 → 0 ≤ r5 → r5 < 1 →
      src ∉ net.crashedNodes →
      net.dropRate ≤ r1 →
      src ∉ net.dropOutgoing →
      dest ∉ net.dropIncoming →
      (src, dest) ∉ net.disabledLinks →
      (networkOn msize net (SysEvent.MessageSend msg src dest) c).events =
        List.replicate ((r5 * 2).ceil.toNat + 1)
          ⟨SysEvent.MessageReceive msg src dest, dest,
            net.minDelay + r2 * (net.maxDelay - net.minDelay)⟩ ∧
      ((r5 * 2).ceil.toNat + 1 = 1 ∨ (r5 * 2).ceil.toNat + 1 = 2 ∨
        (r5 * 2).ceil.toNat + 1 = 3) ∧
      (0 < r5 →
        ((r5 * 2).ceil.toNat + 1 = 2 ∨ (r5 * 2).ceil.toNat + 1 = 3)) := by
  intro M msize net msg src dest r1 r2 r3 r4 r5 rest c
  intro hrng hd1 hr40 hr41 hr50 hr51 hcr hdrop hout hin hlink
  have hdupl : ¬ net.duplRate ≤ r4 := by rw [hd1]; exact not_le.mpr hr41
  obtain ⟨hset, hpos⟩ := ceil_two_mul_bounds r5 hr50 hr51
  exact ⟨networkOn_dupl_events msize net msg src dest r1 r2 r3 r4 r5 rest c
    hrng hcr hdrop hout hin hlink hdupl, hset, hpos⟩

/-- C6 witness: with `dupl_rate = 1.0` and a count draw of `1/2` the
emission count is `ceil(1) + 1 = 2`. -/
theorem dupl_branch_emission_count_wit :
    ((1/2 : ℚ) * 2).ceil.toNat + 1 = 2 ∨ ((1/2 : ℚ) * 2).ceil.toNat + 1 = 3 :=
  (dupl_branch_emission_count Nat (fun _ => 1) wNet 0 "a" "b"
    0 0 0 0 (1/2) [] ⟨"net", 0, 0, [0, 0, 0, 0, 1/2]⟩ rfl rfl
    (by norm_num) (by norm_num) (by norm_num) (by norm_num)
    (by decide) (by decide) (by decide) (by decide) (by decide)).2.2
    (by norm_num)

/-- C6 counterexample: the RNG draw feeding the copy count can be exactly
`0` (`gen_range(0.0 .. 1.0)` ranges over `[0, 1)`), and then the
duplication branch emits `ceil(0 * 2) + 1 = 1` event — not 2 or 3.  So
the claimed emission count set `{2, 3}` is wrong at this input. -/
theorem dupl_emission_single_cex :
    (networkOn (fun _ => (1 : Nat)) wNet (SysEvent.MessageSend (0 : Nat) "a" "b")
        ⟨"net", 0, 0, [0, 0, 0, 0, 0]⟩).events.length = 1 ∧
      ¬((1 : Nat) = 2 ∨ (1 : Nat) = 3) := by
  constructor
  · rw [networkOn_dupl_events (fun _ => 1) wNet 0 "a" "b" 0 0 0 0 0 []
      ⟨"net", 0, 0, [0, 0, 0, 0, 0]⟩ rfl (by decide) (by decide) (by decide)
      (by decide) (by decide) (by norm_num [wNet, networkNew])]
    rw [List.length_replicate]
    norm_num
    decide
  · decide

/-! ## Claim C7 — clock monotonicity -/

lemma dispatchLE_time {E : Type} {a b : EventEntry E} (h : dispatchLE a b) :
    a.time ≤ b.time := by
  rcases h with h | ⟨h, _⟩
  · exact h.le
  · exact h.le

lemma popRel_rest_subset {E : Type} {l rest : List (EventEntry E)}
    {e : EventEntry E} (h : popRel l e rest) : ∀ f ∈ rest, f ∈ l := by
  obtain ⟨⟨l1, l2, hl, hr⟩, _⟩ := h
  intro f hf
  rw [hr] at hf
  rw [hl]
  rcases List.mem_append.mp hf with hf' | hf'
  · exact List.mem_append.mpr (Or.inl hf')
  · exact List.mem_append.mpr (Or.inr (List.mem_cons_of_mem e hf'))

lemma mkEntriesFrom_time_lb {E : Type} :
    ∀ (cs : List (CtxEvent E)) (count : Nat) (t : Rat) (src : String),
      (∀ c ∈ cs, 0 ≤ c.delay) →
      ∀ f ∈ mkEntriesFrom count t src cs, t ≤ f.time := by
  intro cs
  induction cs with
  | nil => intro count t src _ f hf; simp [mkEntriesFrom] at hf
  | cons c rest ih =>
      intro count t src hd f hf
      rcases List.mem_cons.mp hf with rfl | hf'
      · have : 0 ≤ c.delay := hd c (List.mem_cons_self c rest)
        show t ≤ t + c.delay
        linarith
      · exact ih (count + 1) t src
          (fun x hx => hd x (List.mem_cons_of_mem c hx)) f hf'

lemma popRel_singleton {E : Type} (e : EventEntry E) : popRel [e] e [] := by
  refine ⟨⟨[], [], rfl, rfl⟩, ?_⟩
  intro f hf
  obtain rfl : f = e := by simpa using hf
  rw [entryCmp_ne_lt_iff]
  exact dispatchLE_refl f

/-- C7 amended: outside model checking — and provided every
handler-emitted delay is non-negative and every queued event is scheduled
no earlier than the clock — the clock is monotonically non-decreasing:
it advances only when `step` dispatches a non-canceled event, being set
to that event's scheduled time, and never changes during handler
execution (a handler only sees a copy of the time and returns buffers).
During model checking the clock follows the selected event order and can
decrease (see the counterexample), as it can under a negative delay. -/
theorem clock_monotone_nonneg_delays :
    ∀ (S E : Type) (A : ActorSys S E) (s : SimState S E)
      (o : Option (EventEntry E)) (s' : SimState S E),
      (∀ (id : String) (st : S) (e : E) (c : CtxIn E),
        ∀ ce ∈ (A.beh id st e c).events, 0 ≤ ce.delay) →
      (∀ e ∈ s.events, s.clock ≤ e.time) →
      stepRel A s o s' →
      s.clock ≤ s'.clock ∧ (∀ e ∈ s'.events, s'.clock ≤ e.time) ∧
        (s'.clock = s.clock ∨
          ∃ e, o = some e ∧ e.id ∉ s.canceled ∧ s'.clock = e.time) := by
  intro S E A s o s' hdel hinv hstep
  rcases hstep with ⟨_, _, rfl⟩ | ⟨e, rest, hpop, ho, rfl⟩
  · exact ⟨le_refl _, hinv, Or.inl rfl⟩
  · have hrest : ∀ f ∈ rest, f ∈ s.events := popRel_rest_subset hpop
    have hmin : ∀ f ∈ s.events, dispatchLE e f := popRel_min hpop
    have hmem : e ∈ s.events := popRel_mem hpop
    unfold stepOn
    by_cases hc : e.id ∈ s.canceled
    · rw [if_pos hc]
      exact ⟨le_refl _, fun f hf => hinv f (hrest f hf), Or.inl rfl⟩
    · rw [if_neg hc]
      unfold dispatchCore
      have hclk : s.clock ≤ e.time := hinv e hmem
      have hfrest : ∀ f ∈ rest, e.time ≤ f.time :=
        fun f hf => dispatchLE_time (hmin f (hrest f hf))
      cases hga : amGet s.actors e.dest with
      | none =>
          simp only [hga]
          refine ⟨hclk, ?_, Or.inr ⟨e, ho, hc, rfl⟩⟩
          intro f hf
          exact hfrest f (by simpa using hf)
      | some st =>
          by_cases hact : A.isActive e.dest st
          · simp only [hga, if_pos hact]
            refine ⟨hclk, ?_, Or.inr ⟨e, ho, hc, rfl⟩⟩
            intro f hf
            rcases List.mem_append.mp hf with hf' | hf'
            · exact hfrest f hf'
            · exact mkEntriesFrom_time_lb _ _ _ _
                (fun c hcmem => hdel e.dest st e.event _ c hcmem) f hf'
          · simp only [hga, if_neg hact]
            refine ⟨hclk, ?_, Or.inr ⟨e, ho, hc, rfl⟩⟩
            intro f hf
            exact hfrest f (by simpa using hf)

/-- C7 witness: a dispatch from the concrete two-event state advances the
clock to the dispatched event's time and keeps the queue ahead of it. -/
theorem clock_monotone_nonneg_delays_wit :
    wSim0.clock ≤ (stepOn wBeh wSim0 wEntry1 [wEntry0]).clock ∧
      (∀ e ∈ (stepOn wBeh wSim0 wEntry1 [wEntry0]).events,
        (stepOn wBeh wSim0 wEntry1 [wEntry0]).clock ≤ e.time) ∧
      ((stepOn wBeh wSim0 wEntry1 [wEntry0]).clock = wSim0.clock ∨
        ∃ e, (some wEntry1 : Option (EventEntry Nat)) = some e ∧
          e.id ∉ wSim0.canceled ∧
          (stepOn wBeh wSim0 wEntry1 [wEntry0]).clock = e.time) :=
  clock_monotone_nonneg_delays Nat Nat wBeh wSim0 (some wEntry1)
    (stepOn wBeh wSim0 wEntry1 [wEntry0])
    (by intro id st e c ce hce; simp [wBeh] at hce)
    (by rw [wEvents]
        intro e he
        rcases List.mem_cons.mp he with rfl | he'
        · decide
        · obtain rfl : e = wEntry1 := by simpa using he'
          decide)
    (Or.inr ⟨wEntry1, [wEntry0], wPop, rfl, rfl⟩)

/-- C7 counterexample: the clock is not monotone across every sequence of
operations.  First scenario: checker-driven steps (exactly what
`model_checking_step` runs when it explores the selection order
`e2, e1`, its loop iteration `i = 1`) dispatch an event at time 2 and
then one at time 1, so the clock falls from 2 to 1.  Second scenario: a
handler emits an event with delay `-1`; dispatching it moves the clock
from 5 to 4. -/
theorem clock_decrease_cex :
    ((stepMC wBeh c7s0 [c7e1, c7e2]).1.clock = 2 ∧
      (stepMC wBeh (stepMC wBeh c7s0 [c7e1, c7e2]).1
          (stepMC wBeh c7s0 [c7e1, c7e2]).2).1.clock = 1 ∧
      (1 : Rat) < 2) ∧
    (popRel (stepOn c7negBeh c7n0 c7ne0 []).events c7ne1 [] ∧
      (stepOn c7negBeh c7n0 c7ne0 []).clock = 5 ∧
      (stepOn c7negBeh (stepOn c7negBeh c7n0 c7ne0 []) c7ne1 []).clock < 5) := by
  refine ⟨⟨by decide, by decide, by norm_num⟩, ?_, by decide, ?_⟩
  · exact popRel_singleton c7ne1
  · show (5 : Rat) + -1 < 5
    norm_num

/-- C5 witness: setting timer `t` while event id 2 is recorded for it
leaves the cancellation buffer empty and overwrites the entry with the
fresh id 5. -/
theorem set_timer_overwrites_entry_wit :
    (ctxSetTimer wCtxSt "t" 1).canceledEv = wCtxSt.canceledEv ∧
      pmGet (ctxSetTimer wCtxSt "t" 1).timers (wCtxSt.acId, "t") =
        some wCtxSt.nextEventId ∧
      (ctxSetTimer wCtxSt "t" 1).events =
        wCtxSt.events ++ [⟨SysEvent.TimerFired "t", wCtxSt.acId, 1⟩] ∧
      (ctxSetTimer wCtxSt "t" 1).nextEventId = wCtxSt.nextEventId + 1 :=
  set_timer_overwrites_entry Nat wCtxSt "t" 1 2 (by decide)

/-- C5 counterexample: a node sets timer `t` twice in one activation
(delays 1 and 2).  Three kernel steps dispatch the local message and then
BOTH `TimerFired` events: `on_timer` runs twice (the fire counter ends at
2, not at most 1) and the cancellation set stays empty — the earlier
schedule was never canceled. -/
theorem set_timer_double_fire_cex :
    popRel cexSim0.events cexE0 [] ∧
      popRel cexS1.events cexE1 [cexE2] ∧
      popRel cexS2.events cexE2 [] ∧
      (amGet cexS3.actors "n").map (fun a => a.node) = some 2 ∧
      cexS3.canceled = [] ∧ ¬((2 : Nat) ≤ 1) := by
  refine ⟨?_, ?_, ?_, by decide, by decide, by decide⟩
  · exact popRel_singleton cexE0
  · refine ⟨⟨[], [cexE2], rfl, rfl⟩, ?_⟩
    have hev : cexS1.events = [cexE1, cexE2] := rfl
    intro f hf
    rw [hev] at hf
    rw [entryCmp_ne_lt_iff]
    rcases List.mem_cons.mp hf with rfl | hf'
    · exact dispatchLE_refl _
    · obtain rfl : f = cexE2 := by simpa using hf'
      refine Or.inl ?_
      show (0 : Rat) + 0 + 1 < (0 : Rat) + 0 + 2
      norm_num
  · exact popRel_singleton cexE2

/-! ## Claims C4 and C3 — the model checker -/

lemma splitLast_append_singleton {A : Type} (e : A) (l : List A) :
    splitLast (l ++ [e]) = some (l, e) := by
  simp [splitLast, List.reverse_append]

lemma getAt?_lt {A : Type} :
    ∀ (l : List A) (i : Nat) (ev : A), getAt? l i = some ev → i < l.length := by
  intro l
  induction l with
  | nil => intro i ev h; simp [getAt?] at h
  | cons a t ih =>
      intro i ev h
      cases i with
      | zero => simp
      | succ n =>
          have := ih n ev h
          simp only [List.length_cons]
          exact Nat.succ_lt_succ this

lemma eraseAt_length {A : Type} :
    ∀ (l : List A) (i : Nat), i < l.length →
      (eraseAt l i).length = l.length - 1 := by
  intro l
  induction l with
  | nil => intro i h; simp at h
  | cons a t ih =>
      intro i h
      cases i with
      | zero => simp [eraseAt]
      | succ n =>
          have hn : n < t.length := by simpa using h
          have := ih n hn
          cases t with
          | nil => simp at hn
          | cons b t' => simpa [eraseAt] using this

lemma insAt_eraseAt {A : Type} :
    ∀ (l : List A) (i : Nat) (ev : A), getAt? l i = some ev →
      insAt i ev (eraseAt l i) = l := by
  intro l
  induction l with
  | nil => intro i ev h; simp [getAt?] at h
  | cons a t ih =>
      intro i ev h
      cases i with
      | zero =>
          obtain rfl : a = ev := by simpa [getAt?] using h
          rfl
      | succ n =>
          have := ih n ev h
          cases t with
          | nil => simp [getAt?] at h
          | cons b t' => simp [eraseAt, insAt, this]

lemma take_len_append {A : Type} :
    ∀ (l ems : List A), (l ++ ems).take l.length = l := by
  intro l ems
  induction l with
  | nil => rfl
  | cons a t ih => simpa [List.take] using ih

lemma dispatchCore_events {S E : Type} (A : ActorSys S E) (s : SimState S E)
    (e : EventEntry E) : (dispatchCore A s e).1.events = s.events := by
  simp only [dispatchCore]
  cases hga : amGet s.actors e.dest with
  | none => rfl
  | some st =>
      by_cases hact : A.isActive e.dest st <;> simp [hact]

lemma stepMC_events {S E : Type} (A : ActorSys S E) (s : SimState S E)
    (frame : List (EventEntry E)) : (stepMC A s frame).1.events = s.events := by
  simp only [stepMC]
  cases hsp : splitLast frame with
  | none => rfl
  | some p =>
      obtain ⟨f0, e⟩ := p
      by_cases hc : e.id ∈ s.canceled
      · simp [hc]
      · simpa [hc] using dispatchCore_events A s e

lemma stepMC_frame_shape {S E : Type} (A : ActorSys S E) (s : SimState S E)
    {frame f0 : List (EventEntry E)} {e : EventEntry E}
    (h : splitLast frame = some (f0, e)) :
    ∃ ems, (stepMC A s frame).2 = f0 ++ ems := by
  unfold stepMC
  rw [h]
  by_cases hc : e.id ∈ s.canceled
  · exact ⟨[], by simp [hc]⟩
  · exact ⟨(dispatchCore A s e).2, by simp [hc]⟩

/-- The restoration part of one DFS level: if every recursive call
restores the snapshot-relevant state and the frame, so does the loop. -/
lemma mcLoop_restores {S E : Type} {A : ActorSys S E}
    {check : List (String × S) → Bool} {oracle : Nat → Bool}
    (next : SimState S E → List (EventEntry E) → Nat →
      Option (Bool × SimState S E × List (EventEntry E) × Nat))
    (hnext : ∀ s frame tchk res s' frame' tchk',
      next s frame tchk = some (res, s', frame', tchk') →
      s'.events = s.events ∧ s'.canceled = s.canceled ∧
        s'.eventCount = s.eventCount ∧ s'.rng = s.rng ∧
        s'.actors = s.actors ∧ frame' = frame) :
    ∀ (il : List Nat) (s : SimState S E) (frame : List (EventEntry E))
      (tchk : Nat) (res : Bool) (s' : SimState S E)
      (frame' : List (EventEntry E)) (tchk' : Nat),
      mcLoop A check oracle next frame.length il s frame tchk =
        some (res, s', frame', tchk') →
      s'.events = s.events ∧ s'.canceled = s.canceled ∧
        s'.eventCount = s.eventCount ∧ s'.rng = s.rng ∧
        s'.actors = s.actors ∧ frame' = frame := by
  intro il
  induction il with
  | nil =>
      intro s frame tchk res s' frame' tchk' h
      simp only [mcLoop, Option.some.injEq, Prod.mk.injEq] at h
      obtain ⟨-, h2, h3, -⟩ := h
      exact ⟨by rw [← h2], by rw [← h2], by rw [← h2], by rw [← h2],
        by rw [← h2], h3.symm⟩
  | cons i is ih =>
      intro s frame tchk res s' frame' tchk' h
      simp only [mcLoop] at h
      by_cases ho : oracle tchk
      · rw [if_pos ho] at h
        simp only [Option.some.injEq, Prod.mk.injEq] at h
        obtain ⟨-, h2, h3, -⟩ := h
        exact ⟨by rw [← h2], by rw [← h2], by rw [← h2], by rw [← h2],
          by rw [← h2], h3.symm⟩
      · rw [if_neg ho] at h
        cases hga : getAt? frame i with
        | none => rw [hga] at h; simp at h
        | some ev =>
            rw [hga] at h
            dsimp only at h
            cases hn : next (stepMC A s (eraseAt frame i ++ [ev])).1
                (stepMC A s (eraseAt frame i ++ [ev])).2 (tchk + 1) with
            | none => rw [hn] at h; simp at h
            | some q =>
                obtain ⟨res0, s2, frame3, tchk2⟩ := q
                rw [hn] at h
                dsimp only at h
                obtain ⟨hev, hcan, hcnt, hrng, hact, hfr⟩ :=
                  hnext _ _ _ _ _ _ _ hn
                have hif : i < frame.length := getAt?_lt frame i ev hga
                obtain ⟨ems, hems⟩ := stepMC_frame_shape A s
                  (splitLast_append_singleton ev (eraseAt frame i))
                have hel : (eraseAt frame i).length = frame.length - 1 :=
                  eraseAt_length frame i hif
                have hframe5 :
                    insAt i ev (frame3.take (frame.length - 1)) = frame := by
                  rw [hfr, hems, ← hel, take_len_append]
                  exact insAt_eraseAt frame i ev hga
                have hevs : s2.events = s.events := by
                  rw [hev, stepMC_events]
                cases res0 with
                | false =>
                    simp only [Bool.false_eq_true, if_false,
                      Option.some.injEq, Prod.mk.injEq] at h
                    obtain ⟨hres, h2, h3, -⟩ := h
                    refine ⟨?_, ?_, ?_, ?_, ?_, ?_⟩
                    · rw [← h2]; exact hevs
                    · rw [← h2]
                    · rw [← h2]
                    · rw [← h2]
                    · rw [← h2]
                    · rw [← h3]; exact hframe5
                | true =>
                    simp only [if_true] at h
                    rw [hframe5] at h
                    have := ih _ frame tchk2 res s' frame' tchk' h
                    obtain ⟨g1, g2, g3, g4, g5, g6⟩ := this
                    refine ⟨?_, ?_, ?_, ?_, ?_, g6⟩
                    · rw [g1]; exact hevs
                    · exact g2
                    · exact g3
                    · exact g4
                    · exact g5

/-- `model_checking_step` never mutates the committed queue, and on
return the cancellation set, the event counter, the RNG and every actor's
state are restored from the snapshot, and the frame holds exactly its
entry contents in order. -/
lemma mcStep_restores {S E : Type} (A : ActorSys S E)
    (check : List (String × S) → Bool) (oracle : Nat → Bool) :
    ∀ (fuel : Nat) (s : SimState S E) (frame : List (EventEntry E))
      (tchk : Nat) (res : Bool) (s' : SimState S E)
      (frame' : List (EventEntry E)) (tchk' : Nat),
      mcStep A check oracle fuel s frame tchk =
        some (res, s', frame', tchk') →
      s'.events = s.events ∧ s'.canceled = s.canceled ∧
        s'.eventCount = s.eventCount ∧ s'.rng = s.rng ∧
        s'.actors = s.actors ∧ frame' = frame := by
  intro fuel
  induction fuel with
  | zero =>
      intro s frame tchk res s' frame' tchk' h
      simp [mcStep] at h
  | succ m ih =>
      intro s frame tchk res s' frame' tchk' h
      simp only [mcStep] at h
      by_cases hz : frame.length = 0
      · rw [if_pos hz] at h
        simp only [Option.some.injEq, Prod.mk.injEq] at h
        obtain ⟨-, h2, h3, -⟩ := h
        exact ⟨by rw [← h2], by rw [← h2], by rw [← h2], by rw [← h2],
          by rw [← h2], h3.symm⟩
      · rw [if_neg hz] at h
        exact mcLoop_restores (mcStep A check oracle m)
          (fun a b c d e f g hh => ih a b c d e f g hh)
          (List.range frame.length) s frame tchk res s' frame' tchk' h

/-- C4: during model checking the kernel's committed event queue is never
mutated — a checker-driven step leaves it untouched and appends every
handler emission to the DFS frame — and when `model_checking_step`
returns, the frame holds exactly its entry contents in order and the
cancellation set, event counter, RNG state and every actor's state are
restored from the snapshot. -/
theorem mc_preserves_committed_queue :
    (∀ (S E : Type) (A : ActorSys S E) (s : SimState S E)
        (frame : List (EventEntry E)),
        (stepMC A s frame).1.events = s.events) ∧
    (∀ (S E : Type) (A : ActorSys S E) (s : SimState S E)
        (f0 frame : List (EventEntry E)) (e : EventEntry E),
        splitLast frame = some (f0, e) → e.id ∉ s.canceled →
        (stepMC A s frame).2 = f0 ++ (dispatchCore A s e).2) ∧
    (∀ (S E : Type) (A : ActorSys S E) (check : List (String × S) → Bool)
        (oracle : Nat → Bool) (fuel : Nat) (s s' : SimState S E)
        (frame frame' : List (EventEntry E)) (tchk tchk' : Nat)
        (res : Bool),
        mcStep A check oracle fuel s frame tchk =
          some (res, s', frame', tchk') →
        s'.events = s.events ∧ s'.canceled = s.canceled ∧
          s'.eventCount = s.eventCount ∧ s'.rng = s.rng ∧
          s'.actors = s.actors ∧ frame' = frame) := by
  refine ⟨?_, ?_, ?_⟩
  · intro S E A s frame
    exact stepMC_events A s frame
  · intro S E A s f0 frame e hsp hc
    simp only [stepMC]
    rw [hsp]
    simp [hc]
  · intro S E A check oracle fuel s s' frame frame' tchk tchk' res h
    exact mcStep_restores A check oracle fuel s frame tchk res s' frame' tchk' h

/-- C4 witness: a one-event frame explored to completion returns the
frame as it was and the snapshot fields of the entry state. -/
theorem mc_preserves_committed_queue_wit :
    (⟨1, [], [], [], [c7e1], 3, [], []⟩ : SimState Nat Nat).events =
        c7s0.events ∧
      (⟨1, [], [], [], [c7e1], 3, [], []⟩ : SimState Nat Nat).canceled =
        c7s0.canceled ∧
      (⟨1, [], [], [], [c7e1], 3, [], []⟩ : SimState Nat Nat).eventCount =
        c7s0.eventCount ∧
      (⟨1, [], [], [], [c7e1], 3, [], []⟩ : SimState Nat Nat).rng =
        c7s0.rng ∧
      (⟨1, [], [], [], [c7e1], 3, [], []⟩ : SimState Nat Nat).actors =
        c7s0.actors ∧
      [c7e1] = [c7e1] :=
  mc_preserves_committed_queue.2.2 Nat Nat wBeh (fun _ => true) noTimeout 2
    c7s0 ⟨1, [], [], [], [c7e1], 3, [], []⟩ [c7e1] [c7e1] 0 1 true rfl

/-- A checker-driven step reads only the snapshot-relevant components
(the clock is overwritten with the selected event's time before any use,
and the undelivered log and trace feed nothing), so states with equal
cores step alike. -/
lemma dispatchCore_core_congr {S E : Type} (A : ActorSys S E)
    {s1 s2 : SimState S E} (e : EventEntry E) (h : coreOf s1 = coreOf s2) :
    coreOf (dispatchCore A s1 e).1 = coreOf (dispatchCore A s2 e).1 ∧
      (dispatchCore A s1 e).2 = (dispatchCore A s2 e).2 := by
  have hA : s1.actors = s2.actors := congrArg MCCore.actors h
  have hC : s1.canceled = s2.canceled := congrArg MCCore.canceled h
  have hE : s1.eventCount = s2.eventCount := congrArg MCCore.eventCount h
  have hR : s1.rng = s2.rng := congrArg MCCore.rng h
  simp only [dispatchCore]
  rw [hA, hC, hE, hR]
  cases hga : amGet s2.actors e.dest with
  | none => exact ⟨by trivial, by trivial⟩
  | some st =>
      by_cases hact : A.isActive e.dest st
      · simp only [if_pos hact, coreOf]
        exact ⟨by trivial, by trivial⟩
      · simp only [if_neg hact]
        exact ⟨by trivial, by trivial⟩

lemma stepMC_core_congr {S E : Type} (A : ActorSys S E)
    (f : List (EventEntry E)) {s1 s2 : SimState S E}
    (h : coreOf s1 = coreOf s2) :
    coreOf (stepMC A s1 f).1 = coreOf (stepMC A s2 f).1 ∧
      (stepMC A s1 f).2 = (stepMC A s2 f).2 := by
  have hC : s1.canceled = s2.canceled := congrArg MCCore.canceled h
  simp only [stepMC]
  cases hsp : splitLast f with
  | none => exact ⟨h, rfl⟩
  | some p =>
      obtain ⟨f0, e⟩ := p
      rw [hC]
      by_cases hc : e.id ∈ s2.canceled
      · simp only [if_pos hc, coreOf]
        have hA : s1.actors = s2.actors := congrArg MCCore.actors h
        have hE2 : s1.eventCount = s2.eventCount :=
          congrArg MCCore.eventCount h
        have hR2 : s1.rng = s2.rng := congrArg MCCore.rng h
        rw [hA, hE2, hR2]
        exact ⟨by trivial, by trivial⟩
      · simp only [if_neg hc]
        have := dispatchCore_core_congr A e h
        exact ⟨this.1, by rw [this.2]⟩

lemma mcChoose_spec {S E : Type} (A : ActorSys S E) (s : SimState S E)
    (frame : List (EventEntry E)) (i : Nat) (ev : EventEntry E)
    (hga : getAt? frame i = some ev) :
    (mcChoose A (coreOf s) frame i).1 =
        coreOf (stepMC A s (eraseAt frame i ++ [ev])).1 ∧
      (mcChoose A (coreOf s) frame i).2 =
        (stepMC A s (eraseAt frame i ++ [ev])).2 := by
  have hcore : coreOf (coreState E (coreOf s)) = coreOf s := rfl
  have h := stepMC_core_congr A (eraseAt frame i ++ [ev]) hcore
  simp only [mcChoose, hga]
  exact ⟨h.1, h.2⟩

/-- Soundness of one DFS level: a `false` return means a violating leaf
was reached from the (restored-core) entry state. -/
lemma mcLoop_sound {S E : Type} {A : ActorSys S E}
    {check : List (String × S) → Bool} {oracle : Nat → Bool}
    (next : SimState S E → List (EventEntry E) → Nat →
      Option (Bool × SimState S E × List (EventEntry E) × Nat))
    (hnextR : ∀ s frame tchk res s' frame' tchk',
      next s frame tchk = some (res, s', frame', tchk') →
      s'.events = s.events ∧ s'.canceled = s.canceled ∧
        s'.eventCount = s.eventCount ∧ s'.rng = s.rng ∧
        s'.actors = s.actors ∧ frame' = frame)
    (hnextS : ∀ s frame tchk s' frame' tchk',
      next s frame tchk = some (false, s', frame', tchk') →
      mcReach A check (coreOf s) frame) :
    ∀ (il : List Nat) (s : SimState S E) (frame : List (EventEntry E))
      (tchk : Nat) (s' : SimState S E) (frame' : List (EventEntry E))
      (tchk' : Nat),
      mcLoop A check oracle next frame.length il s frame tchk =
        some (false, s', frame', tchk') →
      mcReach A check (coreOf s) frame := by
  intro il
  induction il with
  | nil =>
      intro s frame tchk s' frame' tchk' h
      simp [mcLoop] at h
  | cons i is ih =>
      intro s frame tchk s' frame' tchk' h
      simp only [mcLoop] at h
      by_cases ho : oracle tchk
      · rw [if_pos ho] at h
        simp at h
      · rw [if_neg ho] at h
        cases hga : getAt? frame i with
        | none => rw [hga] at h; simp at h
        | some ev =>
            rw [hga] at h
            dsimp only at h
            cases hn : next (stepMC A s (eraseAt frame i ++ [ev])).1
                (stepMC A s (eraseAt frame i ++ [ev])).2 (tchk + 1) with
            | none => rw [hn] at h; simp at h
            | some q =>
                obtain ⟨res0, s2, frame3, tchk2⟩ := q
                rw [hn] at h
                dsimp only at h
                have hif : i < frame.length := getAt?_lt frame i ev hga
                cases res0 with
                | false =>
                    have hreach := hnextS _ _ _ _ _ _ hn
                    have hch := mcChoose_spec A s frame i ev hga
                    refine mcReach.pick (coreOf s) frame i hif ?_
                    rw [hch.1, hch.2]
                    exact hreach
                | true =>
                    simp only [if_true] at h
                    obtain ⟨hev, hcan, hcnt, hrng, hact, hfr⟩ :=
                      hnextR _ _ _ _ _ _ _ hn
                    obtain ⟨ems, hems⟩ := stepMC_frame_shape A s
                      (splitLast_append_singleton ev (eraseAt frame i))
                    have hel : (eraseAt frame i).length = frame.length - 1 :=
                      eraseAt_length frame i hif
                    have hframe5 :
                        insAt i ev (frame3.take (frame.length - 1)) =
                          frame := by
                      rw [hfr, hems, ← hel, take_len_append]
                      exact insAt_eraseAt frame i ev hga
                    rw [hframe5] at h
                    have hrec := ih _ frame tchk2 s' frame' tchk' h
                    exact hrec

/-- `model_checking_step` returns `false` only when a violating leaf is
reachable by some sequence of event selections — with any deadline
oracle. -/
lemma mcStep_sound {S E : Type} (A : ActorSys S E)
    (check : List (String × S) → Bool) (oracle : Nat → Bool) :
    ∀ (fuel : Nat) (s : SimState S E) (frame : List (EventEntry E))
      (tchk : Nat) (s' : SimState S E) (frame' : List (EventEntry E))
      (tchk' : Nat),
      mcStep A check oracle fuel s frame tchk =
        some (false, s', frame', tchk') →
      mcReach A check (coreOf s) frame := by
  intro fuel
  induction fuel with
  | zero =>
      intro s frame tchk s' frame' tchk' h
      simp [mcStep] at h
  | succ m ih =>
      intro s frame tchk s' frame' tchk' h
      simp only [mcStep] at h
      by_cases hz : frame.length = 0
      · rw [if_pos hz] at h
        obtain rfl : frame = [] := List.length_eq_zero.mp hz
        simp only [Option.some.injEq, Prod.mk.injEq] at h
        obtain ⟨h1, -⟩ := h
        exact mcReach.leaf (coreOf s) h1
      · rw [if_neg hz] at h
        exact mcLoop_sound (mcStep A check oracle m)
          (fun a b c d e f g hh =>
            mcStep_restores A check oracle m a b c d e f g hh)
          (fun a b c d e f hh => ih a b c d e f hh)
          (List.range frame.length) s frame tchk s' frame' tchk' h

/-- Completeness of one DFS level under a never-firing deadline: a `true`
return means no explored selection reaches a violating leaf. -/
lemma mcLoop_true {S E : Type} {A : ActorSys S E}
    {check : List (String × S) → Bool}
    (next : SimState S E → List (EventEntry E) → Nat →
      Option (Bool × SimState S E × List (EventEntry E) × Nat))
    (hnextR : ∀ s frame tchk res s' frame' tchk',
      next s frame tchk = some (res, s', frame', tchk') →
      s'.events = s.events ∧ s'.canceled = s.canceled ∧
        s'.eventCount = s.eventCount ∧ s'.rng = s.rng ∧
        s'.actors = s.actors ∧ frame' = frame)
    (hnextT : ∀ s frame tchk s' frame' tchk',
      next s frame tchk = some (true, s', frame', tchk') →
      ¬ mcReach A check (coreOf s) frame) :
    ∀ (il : List Nat) (s : SimState S E) (frame : List (EventEntry E))
      (tchk : Nat) (s' : SimState S E) (frame' : List (EventEntry E))
      (tchk' : Nat),
      mcLoop A check noTimeout next frame.length il s frame tchk =
        some (true, s', frame', tchk') →
      ∀ i ∈ il,
        ¬ mcReach A check (mcChoose A (coreOf s) frame i).1
            (mcChoose A (coreOf s) frame i).2 := by
  intro il
  induction il with
  | nil =>
      intro s frame tchk s' frame' tchk' _ i hi
      simp at hi
  | cons j is ih =>
      intro s frame tchk s' frame' tchk' h i hi
      simp only [mcLoop] at h
      rw [if_neg (by simp [noTimeout])] at h
      cases hga : getAt? frame j with
      | none => rw [hga] at h; simp at h
      | some ev =>
          rw [hga] at h
          dsimp only at h
          cases hn : next (stepMC A s (eraseAt frame j ++ [ev])).1
              (stepMC A s (eraseAt frame j ++ [ev])).2 (tchk + 1) with
          | none => rw [hn] at h; simp at h
          | some q =>
              obtain ⟨res0, s2, frame3, tchk2⟩ := q
              rw [hn] at h
              dsimp only at h
              cases res0 with
              | false => simp at h
              | true =>
                  simp only [if_true] at h
                  obtain ⟨hev, hcan, hcnt, hrng, hact, hfr⟩ :=
                    hnextR _ _ _ _ _ _ _ hn
                  have hif : j < frame.length := getAt?_lt frame j ev hga
                  obtain ⟨ems, hems⟩ := stepMC_frame_shape A s
                    (splitLast_append_singleton ev (eraseAt frame j))
                  have hel : (eraseAt frame j).length = frame.length - 1 :=
                    eraseAt_length frame j hif
                  have hframe5 :
                      insAt j ev (frame3.take (frame.length - 1)) =
                        frame := by
                    rw [hfr, hems, ← hel, take_len_append]
                    exact insAt_eraseAt frame j ev hga
                  rw [hframe5] at h
                  rcases List.mem_cons.mp hi with rfl | his
                  · have hch := mcChoose_spec A s frame i ev hga
                    rw [hch.1, hch.2]
                    exact hnextT _ _ _ _ _ _ hn
                  · have hrec := ih _ frame tchk2 s' frame' tchk' h i his
                    exact hrec

/-- With a never-firing deadline, a `true` return of
`model_checking_step` means no violating leaf is reachable. -/
lemma mcStep_true {S E : Type} (A : ActorSys S E)
    (check : List (String × S) → Bool) :
    ∀ (fuel : Nat) (s : SimState S E) (frame : List (EventEntry E))
      (tchk : Nat) (s' : SimState S E) (frame' : List (EventEntry E))
      (tchk' : Nat),
      mcStep A check noTimeout fuel s frame tchk =
        some (true, s', frame', tchk') →
      ¬ mcReach A check (coreOf s) frame := by
  intro fuel
  induction fuel with
  | zero =>
      intro s frame tchk s' frame' tchk' h
      simp [mcStep] at h
  | succ m ih =>
      intro s frame tchk s' frame' tchk' h hreach
      simp only [mcStep] at h
      by_cases hz : frame.length = 0
      · rw [if_pos hz] at h
        obtain rfl : frame = [] := List.length_eq_zero.mp hz
        simp only [Option.some.injEq, Prod.mk.injEq] at h
        obtain ⟨h1, -⟩ := h
        cases hreach with
        | leaf _ hc =>
            rw [show (coreOf s).actors = s.actors from rfl, h1] at hc
            exact Bool.true_eq_false.mp hc
        | pick _ _ i hilt _ => simp at hilt
      · rw [if_neg hz] at h
        have hall := mcLoop_true (mcStep A check noTimeout m)
          (fun a b c d e f g hh =>
            mcStep_restores A check noTimeout m a b c d e f g hh)
          (fun a b c d e f hh => ih a b c d e f hh)
          (List.range frame.length) s frame tchk s' frame' tchk' h
        cases hreach with
        | leaf _ hc => exact hz (by rfl)
        | pick _ _ i hilt hsub =>
            exact hall i (List.mem_range.mpr hilt) hsub

/-- C3: `model_checking_step` returns `false` only when its DFS over
event-selection orders from the entry state reaches a state where
`check(actors)` is false (with any deadline oracle); with a deadline that
never fires it returns `false` exactly when such a state is reachable;
and when the deadline has passed (the per-iteration check fires at once)
it returns `true` immediately, restoring nothing because nothing ran. -/
theorem mc_step_false_iff_violation :
    (∀ (S E : Type) (A : ActorSys S E) (check : List (String × S) → Bool)
        (oracle : Nat → Bool) (fuel : Nat) (s s' : SimState S E)
        (frame frame' : List (EventEntry E)) (tchk tchk' : Nat),
        mcStep A check oracle fuel s frame tchk =
          some (false, s', frame', tchk') →
        mcReach A check (coreOf s) frame) ∧
    (∀ (S E : Type) (A : ActorSys S E) (check : List (String × S) → Bool)
        (fuel : Nat) (s : SimState S E) (frame : List (EventEntry E))
        (tchk : Nat)
        (out : Bool × SimState S E × List (EventEntry E) × Nat),
        mcStep A check noTimeout fuel s frame tchk = some out →
        (out.1 = false ↔ mcReach A check (coreOf s) frame)) ∧
    (∀ (S E : Type) (A : ActorSys S E) (check : List (String × S) → Bool)
        (oracle : Nat → Bool) (fuel : Nat) (s : SimState S E)
        (frame : List (EventEntry E)) (tchk : Nat),
        frame ≠ [] → oracle tchk = true →
        mcStep A check oracle (fuel + 1) s frame tchk =
          some (true, s, frame, tchk + 1)) := by
  refine ⟨?_, ?_, ?_⟩
  · intro S E A check oracle fuel s s' frame frame' tchk tchk' h
    exact mcStep_sound A check oracle fuel s frame tchk s' frame' tchk' h
  · intro S E A check fuel s frame tchk out h
    obtain ⟨res, s', frame', tchk'⟩ := out
    cases res with
    | false =>
        simp only [iff_true_intro rfl, true_iff]
        exact mcStep_sound A check noTimeout fuel s frame tchk s' frame'
          tchk' h
    | true =>
        constructor
        · intro hc; exact absurd hc (by simp)
        · intro hreach
          exact absurd hreach
            (mcStep_true A check fuel s frame tchk s' frame' tchk' h)
  · intro S E A check oracle fuel s frame tchk hne ho
    simp only [mcStep]
    rw [if_neg (by simpa using hne)]
    cases frame with
    | nil => exact absurd rfl hne
    | cons x xs =>
        rw [show (x :: xs).length = xs.length + 1 from rfl,
          List.range_succ_eq_map]
        simp only [mcLoop]
        rw [if_pos ho]

/-- C3 witness: on an empty frame with an always-false predicate the
checker returns `false`, matching the reachable violating leaf. -/
theorem mc_step_false_iff_violation_wit :
    ((false : Bool) = false ↔
      mcReach wBeh (fun _ => false) (coreOf c7s0) []) :=
  mc_step_false_iff_violation.2.1 Nat Nat wBeh (fun _ => false) 1 c7s0 []
    0 (false, c7s0, [], 0) rfl
